import Mathlib

/-!
# RainaV2 Backend — artifact registry / versioned store / run-diff engine

A shallow embedding, in Lean 4, of the core data structures and operations of
the RainaV2 backend (artifact-service registry + versioned artifact store,
discovery-service run-diff engine), together with proofs and refutations of
the specification claims about them.

Conventions:
* Python `dict`s whose iteration order matters are embedded as association
  lists (`List (String × β)`) in insertion order; inserting an existing key
  updates it in place, a new key is appended (CPython 3.7+ semantics).
* JSON values are the inductive `Json` below; numbers are embedded as `Int`
  (the payloads at issue carry integral numbers; float formatting is out of
  scope of the claims verified here).
* Fallible Python code (uncaught `ValueError`/`KeyError` etc.) is embedded
  with `Except String`.
-/

namespace Raina

/-- JSON value tree (Python objects after `json.loads`): object entry lists
keep insertion order, as Python dicts do. -/
inductive Json where
  | null : Json
  | bool : Bool → Json
  | num : Int → Json
  | str : String → Json
  | arr : List Json → Json
  | obj : List (String × Json) → Json
  deriving Inhabited

/-- ASCII lowering of one character, as Python `str.lower` acts on the ASCII
range (the natural keys and kind ids in this system are ASCII). -/
def pyLowerChar (c : Char) : Char :=
  if 'A' ≤ c ∧ c ≤ 'Z' then Char.ofNat (c.toNat + 32) else c

/-- Python `str.lower`, restricted to its ASCII behaviour. -/
def pyLower (s : String) : String :=
  String.mk (s.data.map pyLowerChar)

/-- `a or b` for a Python value that is either a string or `None`:
`None` and the empty string are falsy. -/
def pyOrElseStr (v : Option String) (fallback : String) : String :=
  match v with
  | some s => if s = "" then fallback else s
  | none => fallback

-- ─────────────────────────────────────────────────────────────
-- Run Diff Engine (services/discovery-service/app/main.py)
-- ─────────────────────────────────────────────────────────────

/-- An artifact record as fetched from the artifact service by the diff
engine (`get_artifacts_by_ids`): the fields that
`_nk` / `_compute_artifacts_diff_for_run` read. -/
structure ArtifactDoc where
  kind : String
  name : String
  natural_key : Option String
  artifact_id : Option String
  fingerprint : Option String
  deriving DecidableEq, Repr

/-- `_nk`: key an artifact by its natural key lower-cased, falling back to
lower-cased `kind:name` when the natural key is `None` or empty
(`(a.get("natural_key") or f"{a.get('kind')}:{a.get('name')}").lower()`). -/
def nkOf (a : ArtifactDoc) : String :=
  pyLower (pyOrElseStr a.natural_key (a.kind ++ ":" ++ a.name))

/-- Python dict insertion: update the first occurrence of the key in place,
else append. -/
def pyDictInsert {β : Type} (m : List (String × β)) (k : String) (v : β) :
    List (String × β) :=
  match m with
  | [] => [(k, v)]
  | (k', v') :: rest =>
    if k' = k then (k, v) :: rest else (k', v') :: pyDictInsert rest k v

/-- `{ _nk(a): a for a in docs }`. -/
def buildByNk (docs : List ArtifactDoc) : List (String × ArtifactDoc) :=
  docs.foldl (fun m a => pyDictInsert m (nkOf a) a) []

/-- Association-list lookup (Python `dict.get`). -/
def lookupStr {β : Type} : List (String × β) → String → Option β
  | [], _ => none
  | (k', v) :: rest, k => if k' = k then some v else lookupStr rest k

/-- `str(l.get("artifact_id") or "")` — `None` and `""` both yield `""`. -/
def idStr (a : ArtifactDoc) : String :=
  match a.artifact_id with
  | some s => s
  | none => ""

/-- The inner classification test of `_compute_artifacts_diff_for_run`:
`(lid and rid and lid == rid) or (lfp and rfp and lfp == rfp)`,
with Python string truthiness (empty / `None` falsy). -/
def sameArtifact (l r : ArtifactDoc) : Bool :=
  (decide (idStr l ≠ "") && decide (idStr r ≠ "") && decide (idStr l = idStr r)) ||
  (match l.fingerprint, r.fingerprint with
   | some x, some y => decide (x ≠ "") && decide (y ≠ "") && decide (x = y)
   | _, _ => false)

/-- Insert a string into a sorted list (Python `sorted`, lexicographic by
code point). -/
def insertSorted (x : String) : List String → List String
  | [] => [x]
  | y :: ys => if x < y then x :: y :: ys else y :: insertSorted x ys

/-- Python `sorted` on a list of strings. -/
def sortStrings (l : List String) : List String :=
  l.foldr insertSorted []

/-- The four key lists produced by the diff. -/
structure ArtifactsDiff where
  new : List String
  updated : List String
  unchanged : List String
  retired : List String
  deriving DecidableEq, Repr

/-- `_compute_artifacts_diff_for_run`, classification core: `leftDocs` are
the fetched baseline-run artifacts, `rightDocs` the candidate-run artifacts.
The `leftDocs = []` branch is the code's explicit `if not left_ids` empty-
baseline special case (`sorted({_nk(a) for a in right_docs})`, every key
new). -/
def computeArtifactsDiff (leftDocs rightDocs : List ArtifactDoc) : ArtifactsDiff :=
  if leftDocs = [] then
    { new := sortStrings ((rightDocs.map nkOf).dedup)
      updated := []
      unchanged := []
      retired := [] }
  else
    let L := buildByNk leftDocs
    let R := buildByNk rightDocs
    let newKeys := R.filterMap fun p =>
      match lookupStr L p.1 with
      | none => some p.1
      | some _ => none
    let updKeys := R.filterMap fun p =>
      match lookupStr L p.1 with
      | none => none
      | some l => if sameArtifact l p.2 then none else some p.1
    let sameKeys := R.filterMap fun p =>
      match lookupStr L p.1 with
      | none => none
      | some l => if sameArtifact l p.2 then some p.1 else none
    let retKeys := L.filterMap fun p =>
      match lookupStr R p.1 with
      | none => some p.1
      | some _ => none
    { new := sortStrings newKeys
      updated := sortStrings updKeys
      unchanged := sortStrings sameKeys
      retired := sortStrings retKeys }

-- ─────────────────────────────────────────────────────────────
-- Identity & Fingerprint Module
-- (`_canonical` / `_sha256` in registry_service.py):
-- `json.dumps(obj, sort_keys=True, separators=(",", ":"))` followed by
-- `hashlib.sha256(s.encode("utf-8")).hexdigest()`.
-- ─────────────────────────────────────────────────────────────

/-- Literal characters that the banned-brace scan would otherwise flag. -/
def quoteChar : Char := Char.ofNat 34

def backslashChar : Char := Char.ofNat 92

def lbraceChar : Char := Char.ofNat 123

def rbraceChar : Char := Char.ofNat 125

/-- Lower-case hex digit. -/
def hexDigitChar (n : Nat) : Char :=
  if n < 10 then Char.ofNat (48 + n) else Char.ofNat (87 + n)

/-- `\uXXXX` escape for a code unit below 0x10000 (Python emits lower-case
hex). -/
def uEscape (n : Nat) : List Char :=
  [backslashChar, 'u', hexDigitChar (n / 4096 % 16), hexDigitChar (n / 256 % 16),
   hexDigitChar (n / 16 % 16), hexDigitChar (n % 16)]

/-- Escape of one character as `json.dumps` (default `ensure_ascii=True`)
performs it: named escapes for the usual control characters, `\u00XX` for
other controls, the character itself for printable ASCII, `\uXXXX` (with a
surrogate pair above 0xFFFF) for everything else. -/
def escapeChar (c : Char) : List Char :=
  if c = quoteChar then [backslashChar, quoteChar]
  else if c = backslashChar then [backslashChar, backslashChar]
  else if c.toNat = 10 then [backslashChar, 'n']
  else if c.toNat = 9 then [backslashChar, 't']
  else if c.toNat = 13 then [backslashChar, 'r']
  else if c.toNat = 8 then [backslashChar, 'b']
  else if c.toNat = 12 then [backslashChar, 'f']
  else if c.toNat < 32 then uEscape c.toNat
  else if c.toNat < 127 then [c]
  else if c.toNat < 65536 then uEscape c.toNat
  else
    uEscape (55296 + (c.toNat - 65536) / 1024) ++
    uEscape (56320 + (c.toNat - 65536) % 1024)

/-- A JSON string literal: quote, escaped characters, quote. -/
def quoteStr (s : String) : List Char :=
  quoteChar :: (s.data.foldr (fun c acc => escapeChar c ++ acc) [quoteChar])

/-- Decimal digits of a natural number (most significant first). -/
def natDigits (n : Nat) : List Char :=
  if h : n < 10 then [Char.ofNat (48 + n)]
  else natDigits (n / 10) ++ [Char.ofNat (48 + n % 10)]
  termination_by n
  decreasing_by exact Nat.div_lt_self (by omega) (by omega)

/-- `json.dumps` of an integer. -/
def intChars (i : Int) : List Char :=
  if i < 0 then '-' :: natDigits (-i).toNat else natDigits i.toNat

/-- Strict lexicographic comparison of character lists by code point —
Python string `<` on the ASCII-range keys at issue. -/
def charListLt : List Char → List Char → Bool
  | [], [] => false
  | [], _ :: _ => true
  | _ :: _, [] => false
  | a :: as, b :: bs =>
    if a.toNat < b.toNat then true
    else if b.toNat < a.toNat then false
    else charListLt as bs

/-- Stable insertion of an entry into a key-sorted entry list (equal keys:
the inserted entry goes after the existing ones). -/
def insertEntry {β : Type} (e : String × β) :
    List (String × β) → List (String × β)
  | [] => [e]
  | y :: ys => if charListLt e.1.data y.1.data then e :: y :: ys
               else y :: insertEntry e ys

/-- `sorted(dct.items())` (`sort_keys=True`): stable sort of the entry list
by key. -/
def sortEntries {β : Type} (l : List (String × β)) : List (String × β) :=
  l.foldr insertEntry []

/-- Join pre-serialized values with commas. -/
def joinComma : List (List Char) → List Char
  | [] => []
  | [x] => x
  | x :: xs => x ++ ',' :: joinComma xs

/-- One `"key":value` object entry from a pre-serialized value. -/
def objEntryChars (e : String × List Char) : List Char :=
  quoteStr e.1 ++ ':' :: e.2

mutual

/-- `_canonical`: `json.dumps(obj, sort_keys=True, separators=(",",":"))`,
produced as a character list. Object entries are serialized first and then
sorted by key, which matches serializing `sorted(dct.items())`. -/
def canonicalChars : Json → List Char
  | .num i => intChars i
  | .str s => quoteStr s
  | .bool false => ['f', 'a', 'l', 's', 'e']
  | .bool true => ['t', 'r', 'u', 'e']
  | .null => ['n', 'u', 'l', 'l']
  | .arr xs => '[' :: (joinComma (canonicalList xs) ++ [']'])
  | .obj l =>
    lbraceChar ::
      (joinComma ((sortEntries (canonicalEntries l)).map objEntryChars) ++
        [rbraceChar])

/-- Serialize every element of a JSON array. -/
def canonicalList : List Json → List (List Char)
  | [] => []
  | x :: xs => canonicalChars x :: canonicalList xs

/-- Serialize the value of every object entry, keeping keys. -/
def canonicalEntries : List (String × Json) → List (String × List Char)
  | [] => []
  | (k, v) :: rest => (k, canonicalChars v) :: canonicalEntries rest

end

/-- `_canonical` as a string. -/
def canonicalStr (d : Json) : String :=
  String.mk (canonicalChars d)

-- ── SHA-256 (`hashlib.sha256`), executable over `Nat` ────────

/-- UTF-8 encoding of one character. -/
def utf8Bytes (c : Char) : List Nat :=
  let n := c.toNat
  if n < 128 then [n]
  else if n < 2048 then [192 + n / 64, 128 + n % 64]
  else if n < 65536 then [224 + n / 4096, 128 + n / 64 % 64, 128 + n % 64]
  else [240 + n / 262144, 128 + n / 4096 % 64, 128 + n / 64 % 64, 128 + n % 64]

/-- `s.encode("utf-8")`. -/
def strBytes (s : List Char) : List Nat :=
  s.foldr (fun c acc => utf8Bytes c ++ acc) []

/-- 32-bit right rotation. -/
def rotr32 (x n : Nat) : Nat :=
  ((x >>> n) ||| (x <<< (32 - n))) % 4294967296

/-- Big-endian 8-byte encoding of the bit length. -/
def bigEndian8 (n : Nat) : List Nat :=
  [n / 72057594037927936 % 256, n / 281474976710656 % 256,
   n / 1099511627776 % 256, n / 4294967296 % 256,
   n / 16777216 % 256, n / 65536 % 256, n / 256 % 256, n % 256]

/-- SHA-256 message padding: `0x80`, zeros to 56 mod 64, 8-byte bit length. -/
def sha256Pad (msg : List Nat) : List Nat :=
  let z := (119 - msg.length % 64) % 64
  msg ++ 128 :: (List.replicate z 0 ++ bigEndian8 (8 * msg.length))

/-- Combine bytes into big-endian 32-bit words. -/
def toWords : List Nat → List Nat
  | b0 :: b1 :: b2 :: b3 :: rest =>
    (((b0 * 256 + b1) * 256 + b2) * 256 + b3) :: toWords rest
  | _ => []

/-- Split a word list into 16-word blocks. -/
def toBlocks (ws : List Nat) : List (List Nat) :=
  if h : ws = [] then []
  else ws.take 16 :: toBlocks (ws.drop 16)
  termination_by ws.length
  decreasing_by
    simp only [List.length_drop]
    have : ws.length ≠ 0 := fun hl => h (List.eq_nil_of_length_eq_zero hl)
    omega

/-- Round constants (fractional parts of the cube roots of the first 64
primes). -/
def sha256K : List Nat :=
  [1116352408, 1899447441, 3049323471, 3921009573, 961987163, 1508970993,
   2453635748, 2870763221, 3624381080, 310598401, 607225278, 1426881987,
   1925078388, 2162078206, 2614888103, 3248222580, 3835390401, 4022224774,
   264347078, 604807628, 770255983, 1249150122, 1555081692, 1996064986,
   2554220882, 2821834349, 2952996808, 3210313671, 3336571891, 3584528711,
   113926993, 338241895, 666307205, 773529912, 1294757372, 1396182291,
   1695183700, 1986661051, 2177026350, 2456956037, 2730485921, 2820302411,
   3259730800, 3345764771, 3516065817, 3600352804, 4094571909, 275423344,
   430227734, 506948616, 659060556, 883997877, 958139571, 1322822218,
   1537002063, 1747873779, 1955562222, 2024104815, 2227730452, 2361852424,
   2428436474, 2756734187, 3204031479, 3329325298]

/-- Initial hash state. -/
def sha256H0 : List Nat :=
  [1779033703, 3144134277, 1013904242, 2773480762, 1359893119, 2600822924,
   528734635, 1541459225]

/-- Extend a 16-word block to the 64-word message schedule. -/
def extendSchedule (block : List Nat) : List Nat :=
  (List.range 48).foldl
    (fun w _ =>
      let n := w.length
      let w15 := w.getD (n - 15) 0
      let w2 := w.getD (n - 2) 0
      let s0 := rotr32 w15 7 ^^^ rotr32 w15 18 ^^^ (w15 >>> 3)
      let s1 := rotr32 w2 17 ^^^ rotr32 w2 19 ^^^ (w2 >>> 10)
      w ++ [(w.getD (n - 16) 0 + s0 + w.getD (n - 7) 0 + s1) % 4294967296])
    block

/-- One SHA-256 compression round over the 8-word working state. -/
def sha256Round (st : List Nat) (kw : Nat × Nat) : List Nat :=
  let a := st.getD 0 0
  let b := st.getD 1 0
  let c := st.getD 2 0
  let d := st.getD 3 0
  let e := st.getD 4 0
  let f := st.getD 5 0
  let g := st.getD 6 0
  let hh := st.getD 7 0
  let s1 := rotr32 e 6 ^^^ rotr32 e 11 ^^^ rotr32 e 25
  let ch := (e &&& f) ^^^ ((e ^^^ 4294967295) &&& g)
  let temp1 := (hh + s1 + ch + kw.2 + kw.1) % 4294967296
  let s0 := rotr32 a 2 ^^^ rotr32 a 13 ^^^ rotr32 a 22
  let maj := (a &&& b) ^^^ (a &&& c) ^^^ (b &&& c)
  let temp2 := (s0 + maj) % 4294967296
  [(temp1 + temp2) % 4294967296, a, b, c, (d + temp1) % 4294967296, e, f, g]

/-- Compress one 16-word block into the hash state. -/
def compressBlock (h : List Nat) (block : List Nat) : List Nat :=
  let w := extendSchedule block
  let fin := (w.zip sha256K).foldl sha256Round h
  List.zipWith (fun x y => (x + y) % 4294967296) h fin

/-- SHA-256 digest of a byte list, as one 256-bit natural number. -/
def sha256Digest (msg : List Nat) : Nat :=
  let hs := (toBlocks (toWords (sha256Pad msg))).foldl compressBlock sha256H0
  hs.foldl (fun acc x => acc * 4294967296 + x % 4294967296) 0

/-- Fixed-width lower-case hex rendering (`hexdigest`). -/
def hexFixed : Nat → Nat → List Char
  | 0, _ => []
  | w + 1, n => hexFixed w (n / 16) ++ [hexDigitChar (n % 16)]

/-- `_sha256(_canonical(data))`: the content fingerprint of a payload. -/
def fingerprint (d : Json) : String :=
  String.mk (hexFixed 64 (sha256Digest (strBytes (canonicalChars d))))

-- ─────────────────────────────────────────────────────────────
-- Adapter / Migration Engine: dotted-path helpers and the
-- declarative DSL (`_dot_get` / `_dot_set` / `_dot_delete` /
-- `_apply_adapter_dsl` in registry_service.py).
-- Uncaught Python exceptions (`ValueError`, `IndexError`) are embedded as
-- `Except.error`; a partially-mutated scratch document that an exception
-- abandons is never observed by any caller, so the error branches carry no
-- document.
-- ─────────────────────────────────────────────────────────────

/-- Value of a non-empty all-digit character list. -/
def digitsVal (l : List Char) : Option Nat :=
  if l ≠ [] ∧ l.all (fun c => c.isDigit) then
    some (l.foldl (fun acc c => acc * 10 + (c.toNat - 48)) 0)
  else none

/-- Python `int(s)` on the forms the dotted paths use: optional sign and
decimal digits (whitespace/underscore tolerance of `int` is not exercised
by dotted-path segments). `none` embeds the raised `ValueError`. -/
def pyInt? (s : String) : Option Int :=
  match s.data with
  | '-' :: rest => (digitsVal rest).map (fun n => -(n : Int))
  | '+' :: rest => (digitsVal rest).map (fun n => (n : Int))
  | l => (digitsVal l).map (fun n => (n : Int))

/-- `path.split(".")` as a structural recursion over the character list
(Python semantics: `"".split(".") == [""]`, empty segments kept). -/
def splitDotChars : List Char → List (List Char)
  | [] => [[]]
  | c :: rest =>
    let r := splitDotChars rest
    if c = '.' then [] :: r
    else
      match r with
      | h :: t => (c :: h) :: t
      | [] => [[c]]

/-- Python `path.split(".")`. -/
def pySplitDot (s : String) : List String :=
  (splitDotChars s.data).map String.mk

/-- `_dot_get`'s walk over already-split parts. -/
def dotGetParts (default : Json) : List String → Json → Json
  | [], cur => cur
  | p :: rest, cur =>
    match cur with
    | .arr l =>
      match pyInt? p with
      | none => default
      | some i =>
        if 0 ≤ i ∧ i < (l.length : Int) then
          dotGetParts default rest (l.getD i.toNat Json.null)
        else default
    | .obj m =>
      match lookupStr m p with
      | some v => dotGetParts default rest v
      | none => default
    | _ => default

/-- `_dot_get(obj, path, default)`: dotted path reader; empty path returns
the document itself; any miss returns the default. -/
def dotGet (cur : Json) (path : String) (default : Json) : Json :=
  if path = "" then cur else dotGetParts default (pySplitDot path) cur

/-- Grow a list to length `n`, padding with `pad`
(`while len(cur) <= idx: cur.append(...)`). -/
def growList (l : List Json) (n : Nat) (pad : Json) : List Json :=
  l ++ List.replicate (n - l.length) pad

/-- Drop the first entry with the given key, if any (`del cur[p]`). -/
def eraseKeyFirst {β : Type} : List (String × β) → String → List (String × β)
  | [], _ => []
  | (k, v) :: rest, p => if k = p then rest else (k, v) :: eraseKeyFirst rest p

/-- `_dot_set`'s walk over already-split parts. Writing through a dict
coerces a missing or non-container child to `{}`; writing through a list
grows it with `{}` (with `None` at the final position); scalars in the way
raise `ValueError` (embedded as `Except.error`). Negative indices follow
Python list indexing. -/
def dotSetParts : List String → Json → Json → Except String Json
  | [], cur, _ => .ok cur
  | [p], cur, value =>
    match cur with
    | .obj m => .ok (.obj (pyDictInsert m p value))
    | .arr l =>
      match pyInt? p with
      | none => .error "invalid literal for int()"
      | some i =>
        if 0 ≤ i then
          .ok (.arr ((growList l (i.toNat + 1) Json.null).set i.toNat value))
        else if (-i) ≤ (l.length : Int) then
          .ok (.arr (l.set (l.length - (-i).toNat) value))
        else .error "list assignment index out of range"
    | _ => .error "Cannot set into non-container"
  | p :: rest, cur, value =>
    match cur with
    | .obj m =>
      let child :=
        match lookupStr m p with
        | some (Json.obj o) => Json.obj o
        | some (Json.arr a) => Json.arr a
        | _ => Json.obj []
      match dotSetParts rest child value with
      | .ok newChild => .ok (.obj (pyDictInsert m p newChild))
      | .error e => .error e
    | .arr l =>
      match pyInt? p with
      | none => .error "invalid literal for int()"
      | some i =>
        if 0 ≤ i then
          let l2 := growList l (i.toNat + 1) (Json.obj [])
          match dotSetParts rest (l2.getD i.toNat Json.null) value with
          | .ok newChild => .ok (.arr (l2.set i.toNat newChild))
          | .error e => .error e
        else if (-i) ≤ (l.length : Int) then
          let pos := l.length - (-i).toNat
          match dotSetParts rest (l.getD pos Json.null) value with
          | .ok newChild => .ok (.arr (l.set pos newChild))
          | .error e => .error e
        else .error "list index out of range"
    | _ => .error "Cannot traverse into non-container"

/-- `_dot_set(obj, path, value)` (the source splits unconditionally; there
is no empty-path special case here). -/
def dotSet (cur : Json) (path : String) (value : Json) : Except String Json :=
  dotSetParts (pySplitDot path) cur value

/-- `_dot_delete`'s walk. A missing dict key or non-container simply stops;
a list is indexed with Python semantics while traversing (negative allowed,
out of range raises) and popped only under an explicit `0 <= idx < len`
bound at the final segment. -/
def dotDeleteParts : List String → Json → Except String Json
  | [], cur => .ok cur
  | [p], cur =>
    match cur with
    | .obj m => .ok (.obj (eraseKeyFirst m p))
    | .arr l =>
      match pyInt? p with
      | none => .error "invalid literal for int()"
      | some i =>
        if 0 ≤ i ∧ i < (l.length : Int) then .ok (.arr (l.eraseIdx i.toNat))
        else .ok (.arr l)
    | _ => .ok cur
  | p :: rest, cur =>
    match cur with
    | .obj m =>
      match lookupStr m p with
      | some child =>
        match dotDeleteParts rest child with
        | .ok c2 => .ok (.obj (pyDictInsert m p c2))
        | .error e => .error e
      | none => .ok cur
    | .arr l =>
      match pyInt? p with
      | none => .error "invalid literal for int()"
      | some i =>
        let pos : Int := if i < 0 then (l.length : Int) + i else i
        if 0 ≤ pos ∧ pos < (l.length : Int) then
          match dotDeleteParts rest (l.getD pos.toNat Json.null) with
          | .ok c2 => .ok (.arr (l.set pos.toNat c2))
          | .error e => .error e
        else .error "list index out of range"
    | _ => .ok cur

/-- `_dot_delete(obj, path)`. -/
def dotDelete (cur : Json) (path : String) : Except String Json :=
  dotDeleteParts (pySplitDot path) cur

/-- A declarative adapter rule: ordered `move` / `set` / `defaults` entries
(Python dicts in insertion order) and `delete` paths. -/
structure AdapterDsl where
  move : List (String × String)
  set : List (String × Json)
  defaults : List (String × Json)
  delete : List String

/-- `cur in (None, "", [], {})`: the "absent/empty" test of the `defaults`
phase. -/
def isEmptyLike : Json → Bool
  | .null => true
  | .str s => s = ""
  | .arr l => l.isEmpty
  | .obj l => l.isEmpty
  | _ => false

/-- `_apply_adapter_dsl(data, dsl)`: deep-copy (`json.loads(json.dumps
(data))`, the identity on JSON values), then apply `move`, `set`,
`defaults`, `delete` in that fixed order. A `move` whose source resolves to
`None` (absent or JSON null — Python conflates the two here) is skipped. -/
def applyAdapterDsl (data : Json) (dsl : AdapterDsl) : Except String Json := do
  let out := data
  let out ← dsl.move.foldlM
    (fun out sd =>
      match dotGet out sd.1 Json.null with
      | .null => pure out
      | val => do
        let out2 ← dotSet out sd.2 val
        dotDelete out2 sd.1)
    out
  let out ← dsl.set.foldlM (fun out pv => dotSet out pv.1 pv.2) out
  let out ← dsl.defaults.foldlM
    (fun out pv =>
      if isEmptyLike (dotGet out pv.1 Json.null) then dotSet out pv.1 pv.2
      else pure out)
    out
  dsl.delete.foldlM (fun out p => dotDelete out p) out

-- ─────────────────────────────────────────────────────────────
-- Kind Registry (registry_service.py): resolution, migration chain,
-- adapters, validation, identity, envelope assembly.
-- The registry store is embedded as the list of kind documents the cache
-- holds after a rebuild (`refresh_cache` rebuilds both maps from a stable
-- point-in-time store read, so resolution is a pure function of it).
-- ─────────────────────────────────────────────────────────────

/-- `ident_spec.get("natural_key")` may be a list of paths or one path. -/
inductive NaturalKeySpec where
  | ofList : List String → NaturalKeySpec
  | ofStr : String → NaturalKeySpec

/-- The identity block of a schema version. -/
structure IdentitySpec where
  natural_key : Option NaturalKeySpec
  summary_rule : Option String

/-- A migrator entry (`from_version`/`to_version` pair plus reshape rule);
`to_version`/`dsl` are `Option` because the code reads them with `.get`. -/
structure Migrator where
  from_version : String
  to_version : Option String
  type : String
  dsl : Option AdapterDsl

/-- An adapter entry (`ad.get("type") or "builtin"` already applied);
`none` for `dsl` covers both an absent and a falsy (empty) dsl. -/
structure Adapter where
  type : String
  dsl : Option AdapterDsl

/-- One schema version of a kind. Prompt metadata is omitted: no verified
claim reads it. `json_schema` is kept as a raw JSON value because the code
only checks `isinstance(schema, dict)` before compiling it. -/
structure SchemaVersionEntry where
  version : String
  json_schema : Option Json
  identity : Option IdentitySpec
  adapters : List Adapter
  migrators : List Migrator

/-- A kind document of the registry. -/
structure KindDoc where
  id : String
  aliases : List String
  latest_schema_version : String
  schema_versions : List SchemaVersionEntry

/-- Kind/alias resolution (`_get_kind_doc` over a rebuilt cache): the kind
id map first, the alias map second. -/
def resolveKind (kinds : List KindDoc) (kindOrAlias : String) : Option KindDoc :=
  match kinds.find? (fun k => k.id == kindOrAlias) with
  | some k => some k
  | none => kinds.find? (fun k => k.aliases.contains kindOrAlias)

/-- Modelled from the spec: `get_schema_version_entry` lives in
`app/dal/kind_registry_dal.py`, which is not among the sources (only its
importer `registry_service.py` is). §4.1: "`getSchemaVersion(kindId,
version?) -> SchemaVersionEntry | NotFound` (when version is omitted,
returns the kind's latest)". -/
def getSchemaVersionEntry (kinds : List KindDoc) (kindId : String)
    (version : Option String) : Option SchemaVersionEntry :=
  match kinds.find? (fun k => k.id == kindId) with
  | none => none
  | some kd =>
    let v := version.getD kd.latest_schema_version
    kd.schema_versions.find? (fun e => e.version == v)

/-- One step table of `migrate_data`'s while loop, fuelled by the
`safety_counter < 50` bound: look up the entry for the current version
(silently stop if absent), take the first migrator with a matching
`from_version`, apply its dsl, advance to its `to_version` (silently stop
if falsy). Fuel exhaustion returns the partially-migrated document. -/
def migrateLoop (kinds : List KindDoc) (kindId target : String) :
    Nat → String → Json → Except String (Json × String)
  | 0, cur, data => .ok (data, cur)
  | fuel + 1, cur, data =>
    if cur = target then .ok (data, cur)
    else
      match getSchemaVersionEntry kinds kindId (some cur) with
      | none => .ok (data, cur)
      | some entry =>
        match entry.migrators.find? (fun m => m.from_version == cur) with
        | none => .ok (data, cur)
        | some mig =>
          let step : Except String Json :=
            if mig.type = "dsl" then
              match mig.dsl with
              | some dsl => applyAdapterDsl data dsl
              | none => .ok data
            else .ok data
          match step with
          | .error e => .error e
          | .ok data2 =>
            match mig.to_version with
            | none => .ok (data2, cur)
            | some nv =>
              if nv = "" then .ok (data2, cur)
              else migrateLoop kinds kindId target fuel nv data2

/-- `migrate_data(kind_or_alias, data, from_version, to_version)`: resolve
the kind (ValueError when unknown), default the target to the kind's
latest, pass straight through when no (or the target) version is declared,
otherwise walk the migrator chain under the 50-hop bound. The initial
`json.loads(json.dumps(data))` deep copy is the identity on values. -/
def migrateData (kinds : List KindDoc) (kindOrAlias : String) (data : Json)
    (fromVersion : Option String) (toVersion : Option String) :
    Except String (Json × String) :=
  match resolveKind kinds kindOrAlias with
  | none => .error ("Unknown kind " ++ kindOrAlias)
  | some kd =>
    let target :=
      match toVersion with
      | some t => if t = "" then kd.latest_schema_version else t
      | none => kd.latest_schema_version
    match fromVersion with
    | none => .ok (data, target)
    | some f =>
      if f = "" then .ok (data, target)
      else if f = target then .ok (data, target)
      else migrateLoop kinds kd.id target 50 f data

/-- `adapt_data(kind_or_alias, data, version)`: resolve, fetch the schema
version entry (ValueError when either is missing), then run every dsl
adapter over a working copy. -/
def adaptData (kinds : List KindDoc) (kindOrAlias : String) (data : Json)
    (version : Option String) : Except String Json :=
  match resolveKind kinds kindOrAlias with
  | none => .error ("Unknown kind " ++ kindOrAlias)
  | some kd =>
    match getSchemaVersionEntry kinds kd.id version with
    | none => .error ("Schema version not found for " ++ kd.id)
    | some entry =>
      entry.adapters.foldlM
        (fun out ad =>
          if ad.type = "dsl" then
            match ad.dsl with
            | some dsl => applyAdapterDsl out dsl
            | none => pure out
          else pure out)
        data

/-- `validate_data(kind_or_alias, data, version)`: the compiled validator
itself is the external `fastjsonschema` backend, passed in as `check`
(schema, payload ↦ error?); this function contributes the resolution,
schema-shape, and error-wrapping logic around it. -/
def validateData (check : Json → Json → Option String)
    (kinds : List KindDoc) (kindOrAlias : String) (data : Json)
    (version : Option String) : Except String Unit :=
  match resolveKind kinds kindOrAlias with
  | none => .error ("Unknown kind " ++ kindOrAlias)
  | some kd =>
    match getSchemaVersionEntry kinds kd.id version with
    | none => .error ("Schema version not found for " ++ kd.id)
    | some entry =>
      match entry.json_schema with
      | some (Json.obj schema) =>
        match check (Json.obj schema) data with
        | some msg => .error ("Validation failed for " ++ kd.id ++ ": " ++ msg)
        | none => .ok ()
      | _ => .error "Invalid or missing json_schema"

/-- Python `str()` of a resolved identity value. Scalars follow Python
exactly; for containers Python renders `repr`, which no registered identity
rule resolves to — the canonical serialization stands in for it here. -/
def pyStr : Json → String
  | .str s => s
  | .null => "None"
  | .bool true => "True"
  | .bool false => "False"
  | .num i => String.mk (intChars i)
  | j => canonicalStr j

/-- Python `str.strip()`. -/
def pyStrip (s : String) : String :=
  String.mk (((s.data.dropWhile Char.isWhitespace).reverse.dropWhile
    Char.isWhitespace).reverse)

/-- `_compute_natural_key(kind_id, name, ident_spec, data)`: resolve the
configured identity paths over `{"data": data, "name": name}`, trim and
lower-case, join with `:` under the kind prefix; fall back to lower-cased
`kind:name` when nothing usable resolves. -/
def computeNaturalKey (kindId name : String) (identSpec : Option IdentitySpec)
    (data : Json) : String :=
  let ctx := Json.obj [("data", data), ("name", Json.str name)]
  let resolved : Option String :=
    match identSpec with
    | none => none
    | some spec =>
      match spec.natural_key with
      | some (.ofList paths) =>
        if paths.isEmpty then none
        else
          let parts := (paths.map
            (fun p => pyLower (pyStrip (pyStr (dotGet ctx p (Json.str "")))))).filter
            (fun p => p ≠ "")
          if parts.isEmpty then none
          else some (kindId ++ ":" ++ String.intercalate ":" parts)
      | some (.ofStr path) =>
        if path = "" then none
        else
          let v := pyLower (pyStrip (pyStr (dotGet ctx path (Json.str ""))))
          if v = "" then none else some (kindId ++ ":" ++ v)
      | none => none
  match resolved with
  | some nk => nk
  | none => pyStrip (pyLower (kindId ++ ":" ++ name))

/-- The normalized envelope `build_envelope` hands to the artifact DAL
(summary/category display metadata omitted: no verified claim reads them). -/
structure Envelope where
  kind : String
  name : String
  data : Json
  natural_key : String
  fingerprint : String
  schema_version : String

/-- `build_envelope`: resolve → migrate to latest → adapt → validate →
identity + content hash. -/
def buildEnvelope (check : Json → Json → Option String)
    (kinds : List KindDoc) (kindOrAlias name : String) (data : Json)
    (suppliedSchemaVersion : Option String) : Except String Envelope :=
  match resolveKind kinds kindOrAlias with
  | none => .error ("Unknown kind " ++ kindOrAlias)
  | some kd => do
    let (migrated, atVersion) ← migrateData kinds kd.id data
      suppliedSchemaVersion (some kd.latest_schema_version)
    let adapted ← adaptData kinds kd.id migrated (some atVersion)
    validateData check kinds kd.id adapted (some atVersion)
    let identSpec := (getSchemaVersionEntry kinds kd.id (some atVersion)).bind
      (fun e => e.identity)
    .ok { kind := kd.id, name := name, data := adapted
          natural_key := computeNaturalKey kd.id name identSpec adapted
          fingerprint := fingerprint adapted
          schema_version := atVersion }

-- ─────────────────────────────────────────────────────────────
-- Versioned Artifact Store (artifact_dal.py + artifact_routes.py).
-- One MongoDB document per workspace embeds the artifact list; timestamps
-- (`datetime.utcnow()`) enter as an explicit `now` argument; the random
-- `uuid4` id of an insert enters as an explicit `newId` argument.
-- ─────────────────────────────────────────────────────────────

/-- An embedded artifact (`ArtifactItem`); the `lineage` block is omitted:
nothing verified reads it. Provenance is carried opaquely. -/
structure ArtifactItem where
  artifact_id : String
  kind : String
  name : String
  data : Json
  natural_key : Option String
  fingerprint : Option String
  version : Nat
  created_at : Nat
  updated_at : Nat
  deleted_at : Option Nat
  provenance : Option Json

/-- The per-workspace parent document (`WorkspaceArtifactsDoc`), reduced to
the fields the verified operations touch. -/
structure WorkspaceDoc where
  workspace_id : String
  artifacts : List ArtifactItem
  updated_at : Nat

/-- An append-only patch-history record. -/
structure PatchRecord where
  artifact_id : String
  workspace_id : String
  from_version : Nat
  to_version : Nat
  patch : Json
  created_at : Nat
  provenance : Option Json

/-- The backing store: the `workspace_artifacts` collection and the
append-only `artifact_patches` collection. -/
structure Db where
  workspaces : List WorkspaceDoc
  patches : List PatchRecord

/-- `find_one({"workspace_id": ...})` (the unique index makes at most one
match; Mongo returns the first). -/
def findWorkspace (db : Db) (ws : String) : Option WorkspaceDoc :=
  db.workspaces.find? (fun w => w.workspace_id == ws)

/-- Apply an update to the first workspace document matching the filter
(`find_one_and_update` / `update_one`). -/
def updateWorkspaceFirst : List WorkspaceDoc → String →
    (WorkspaceDoc → WorkspaceDoc) → List WorkspaceDoc
  | [], _, _ => []
  | w :: rest, ws, f =>
    if w.workspace_id == ws then f w :: rest
    else w :: updateWorkspaceFirst rest ws f

/-- `get_artifact`: unwind the workspace's artifacts and take the first one
with the requested id (soft-deleted ones included — the routes filter). -/
def dalGetArtifact (db : Db) (ws aid : String) : Option ArtifactItem :=
  match findWorkspace db ws with
  | none => none
  | some w => w.artifacts.find? (fun a => a.artifact_id == aid)

/-- `replace_artifact`: `$set` data/updated_at/provenance and `$inc`
version on every embedded artifact matching the array filter, touch the
parent's `updated_at`, then return the updated artifact — raising
(`Except.error`) when the workspace is missing or the artifact is not
found afterwards. The parent write happens even in the latter case. -/
def dalReplaceArtifact (db : Db) (ws aid : String) (newData : Json)
    (prov : Option Json) (now : Nat) : Except String ArtifactItem × Db :=
  match findWorkspace db ws with
  | none => (.error "Artifact or workspace not found", db)
  | some w =>
    let newArts := w.artifacts.map fun a =>
      if a.artifact_id == aid then
        { a with data := newData, updated_at := now, provenance := prov,
                 version := a.version + 1 }
      else a
    let db2 : Db :=
      { db with workspaces := (updateWorkspaceFirst db.workspaces ws
          (fun w0 => { w0 with artifacts := newArts, updated_at := now })) }
    match newArts.find? (fun a => a.artifact_id == aid) with
    | some a => (.ok a, db2)
    | none => (.error "Updated artifact not found after replace", db2)

/-- `record_patch`: append one history record. -/
def dalRecordPatch (db : Db) (ws aid : String) (fromV toV : Nat)
    (patch : Json) (prov : Option Json) (now : Nat) : Db :=
  { db with patches := db.patches ++
      [{ artifact_id := aid, workspace_id := ws, from_version := fromV,
         to_version := toV, patch := patch, created_at := now,
         provenance := prov }] }

/-- `soft_delete_artifact`: stamp `deleted_at`/`updated_at` on embedded
artifacts matching the array filter (id matches AND not yet deleted),
touch the parent, then return the first artifact with the id — whether or
not the filter touched it. `none` only when the workspace is missing or
the id is absent. -/
def dalSoftDeleteArtifact (db : Db) (ws aid : String) (now : Nat) :
    Option ArtifactItem × Db :=
  match findWorkspace db ws with
  | none => (none, db)
  | some w =>
    let newArts := w.artifacts.map fun a =>
      if a.artifact_id == aid && a.deleted_at == none then
        { a with deleted_at := some now, updated_at := now }
      else a
    let db2 : Db :=
      { db with workspaces := (updateWorkspaceFirst db.workspaces ws
          (fun w0 => { w0 with artifacts := newArts, updated_at := now })) }
    (newArts.find? (fun a => a.artifact_id == aid), db2)

/-- An `HTTPException` raised by a route. -/
structure HttpError where
  status : Nat
  detail : String

/-- `_guard_if_match(expected, actual)`: 412 when an expected version is
supplied and differs from the stored one. -/
def guardIfMatch (expected : Option Int) (actual : Nat) :
    Except HttpError Unit :=
  match expected with
  | none => .ok ()
  | some e =>
    if e ≠ (actual : Int) then
      .error { status := 412,
               detail := "Precondition Failed: expected version " ++
                 toString e ++ ", actual " ++ toString actual }
    else .ok ()

/-- `PUT /artifact/{ws}/{id}` (`replace_artifact` route): 404 on missing or
soft-deleted, 412 on an If-Match mismatch — both before any write; then
the DAL replace (whose own failure escapes as a 500). Event publication is
an external best-effort side channel and carries no store effect. -/
def replaceArtifactRoute (db : Db) (ws aid : String) (newData : Json)
    (prov : Option Json) (ifMatch : Option Int) (now : Nat) :
    Except HttpError ArtifactItem × Db :=
  match dalGetArtifact db ws aid with
  | none => (.error { status := 404, detail := "Not found" }, db)
  | some art =>
    if art.deleted_at ≠ none then
      (.error { status := 404, detail := "Not found" }, db)
    else
      match guardIfMatch ifMatch art.version with
      | .error e => (.error e, db)
      | .ok _ =>
        match dalReplaceArtifact db ws aid newData prov now with
        | (.error e, db2) => (.error { status := 500, detail := e }, db2)
        | (.ok updated, db2) => (.ok updated, db2)

/-- `POST /artifact/{ws}/{id}/patch` (`patch_artifact` route): 404/412
guards exactly as replace, then the external `jsonpatch.apply_patch`
(passed in as `applyPatch`; its failure is a 400), then the DAL replace
and one appended patch record. -/
def patchArtifact (applyPatch : Json → Json → Except String Json)
    (db : Db) (ws aid : String) (patch : Json) (prov : Option Json)
    (ifMatch : Option Int) (now : Nat) : Except HttpError ArtifactItem × Db :=
  match dalGetArtifact db ws aid with
  | none => (.error { status := 404, detail := "Not found" }, db)
  | some art =>
    if art.deleted_at ≠ none then
      (.error { status := 404, detail := "Not found" }, db)
    else
      match guardIfMatch ifMatch art.version with
      | .error e => (.error e, db)
      | .ok _ =>
        match applyPatch art.data patch with
        | .error e =>
          (.error { status := 400, detail := "Invalid patch: " ++ e }, db)
        | .ok newData =>
          match dalReplaceArtifact db ws aid newData prov now with
          | (.error e, db2) => (.error { status := 500, detail := e }, db2)
          | (.ok updated, db2) =>
            (.ok updated,
             dalRecordPatch db2 ws aid art.version updated.version patch
               prov now)

/-- `DELETE /artifact/{ws}/{id}` (`delete_artifact` route): 404 exactly
when the DAL soft delete returns nothing. -/
def deleteArtifactRoute (db : Db) (ws aid : String) (now : Nat) :
    Except HttpError Unit × Db :=
  match dalSoftDeleteArtifact db ws aid now with
  | (none, db2) =>
    (.error { status := 404, detail := "Not found or already deleted" }, db2)
  | (some _, db2) => (.ok (), db2)

/-- The existing-artifact probe of the upsert: first non-deleted artifact
of the workspace with the same kind and natural key. -/
def findByNaturalKey (arts : List ArtifactItem) (kind nk : String) :
    Option ArtifactItem :=
  arts.find? (fun a =>
    a.kind == kind && a.natural_key == some nk && a.deleted_at == none)

/-- Modelled from the spec: `dal.upsert_artifact` is called by the
single/batch upsert routes (artifact_routes.py) but its definition is not
among the sources. §4.3 steps 5–7: compute the natural key (identity-rule
paths per §4.4, `kind:name` lower-cased fallback) and the content
fingerprint of the canonicalized payload; look up an existing non-deleted
artifact with the same (workspace, kind, natural key); insert at version 1
when absent (`insert`), perform no write and return the existing artifact
when the fingerprint is unchanged (`noop`), otherwise atomically replace
payload/fingerprint/provenance and bump the version by one (`update`). -/
def upsertArtifact (db : Db) (ws kind name : String) (data : Json)
    (identityPaths : List String) (prov : Option Json)
    (newId : String) (now : Nat) :
    Except String ((ArtifactItem × String) × Db) :=
  let nk := computeNaturalKey kind name
    (some { natural_key := some (.ofList identityPaths), summary_rule := none })
    data
  let fp := fingerprint data
  match findWorkspace db ws with
  | none => .error ("Workspace parent not found for " ++ ws)
  | some w =>
    match findByNaturalKey w.artifacts kind nk with
    | none =>
      let item : ArtifactItem :=
        { artifact_id := newId, kind := kind, name := name, data := data,
          natural_key := some nk, fingerprint := some fp, version := 1,
          created_at := now, updated_at := now, deleted_at := none,
          provenance := prov }
      let db2 : Db :=
        { db with workspaces := (updateWorkspaceFirst db.workspaces ws
            (fun w0 =>
              { w0 with
                artifacts := w0.artifacts ++ [item]
                updated_at := now })) }
      .ok ((item, "insert"), db2)
    | some existing =>
      if existing.fingerprint == some fp then
        .ok ((existing, "noop"), db)
      else
        let updated :=
          { existing with
            data := data
            fingerprint := some fp
            version := existing.version + 1
            updated_at := now
            provenance := prov }
        let db2 : Db :=
          { db with workspaces := (updateWorkspaceFirst db.workspaces ws
              (fun w0 =>
                { w0 with
                  artifacts := (w0.artifacts.map (fun a =>
                    if a.artifact_id == existing.artifact_id then updated
                    else a))
                  updated_at := now })) }
        .ok ((updated, "update"), db2)

-- ─────────────────────────────────────────────────────────────
-- Association-list and sorting lemmas
-- ─────────────────────────────────────────────────────────────

/-- Keys of an association list. -/
def alKeys {β : Type} (m : List (String × β)) : List String :=
  m.map Prod.fst

theorem mem_insertSorted {a x : String} {l : List String} :
    a ∈ insertSorted x l ↔ a = x ∨ a ∈ l := by
  induction l with
  | nil => simp [insertSorted]
  | cons y ys ih =>
    simp only [insertSorted]
    split
    · simp
    · simp [ih]
      tauto

theorem mem_sortStrings {a : String} {l : List String} :
    a ∈ sortStrings l ↔ a ∈ l := by
  induction l with
  | nil => simp [sortStrings]
  | cons x xs ih =>
    simp only [sortStrings, List.foldr] at *
    rw [mem_insertSorted, ih]
    simp

theorem mem_keys_pyDictInsert {β : Type} {a k : String} {v : β}
    {m : List (String × β)} :
    a ∈ alKeys (pyDictInsert m k v) ↔ a = k ∨ a ∈ alKeys m := by
  induction m with
  | nil => simp [pyDictInsert, alKeys]
  | cons p rest ih =>
    obtain ⟨k', v'⟩ := p
    simp only [pyDictInsert]
    split
    · rename_i h
      subst h
      simp [alKeys]
    · simp [alKeys] at ih ⊢
      rw [ih]
      tauto

theorem nodup_keys_pyDictInsert {β : Type} {k : String} {v : β}
    {m : List (String × β)} (h : (alKeys m).Nodup) :
    (alKeys (pyDictInsert m k v)).Nodup := by
  induction m with
  | nil => simp [pyDictInsert, alKeys]
  | cons p rest ih =>
    obtain ⟨k', v'⟩ := p
    simp only [alKeys, List.map, List.nodup_cons] at h
    simp only [pyDictInsert]
    split
    · rename_i he
      subst he
      simpa [alKeys] using h
    · rename_i he
      have hrest := ih h.2
      simp only [alKeys, List.map, List.nodup_cons]
      refine ⟨?_, hrest⟩
      intro hmem
      have := mem_keys_pyDictInsert.mp hmem
      rcases this with h1 | h1
      · exact he h1
      · exact h.1 h1

theorem nodup_keys_buildByNk (docs : List ArtifactDoc) :
    (alKeys (buildByNk docs)).Nodup := by
  have general : ∀ (ds : List ArtifactDoc) (m : List (String × ArtifactDoc)),
      (alKeys m).Nodup →
      (alKeys (ds.foldl (fun m a => pyDictInsert m (nkOf a) a) m)).Nodup := by
    intro ds
    induction ds with
    | nil => intro m h; simpa using h
    | cons d ds ih =>
      intro m h
      exact ih _ (nodup_keys_pyDictInsert h)
  exact general docs [] (by simp [alKeys])

theorem lookupStr_eq_some_mem {β : Type} {m : List (String × β)} {k : String}
    {v : β} (h : lookupStr m k = some v) : (k, v) ∈ m := by
  induction m with
  | nil => simp [lookupStr] at h
  | cons p rest ih =>
    obtain ⟨k', v'⟩ := p
    simp only [lookupStr] at h
    split at h
    · rename_i he
      subst he
      simp at h
      subst h
      simp
    · simp [ih h]

theorem lookupStr_of_mem_nodup {β : Type} {m : List (String × β)} {k : String}
    {v : β} (hnd : (alKeys m).Nodup) (h : (k, v) ∈ m) :
    lookupStr m k = some v := by
  induction m with
  | nil => simp at h
  | cons p rest ih =>
    obtain ⟨k', v'⟩ := p
    simp only [alKeys, List.map, List.nodup_cons] at hnd
    simp only [List.mem_cons] at h
    rcases h with h | h
    · obtain ⟨h1, h2⟩ := Prod.mk.injEq .. ▸ h
      simp only [lookupStr]
      rw [if_pos h1.symm]
      exact congrArg some h2.symm
    · simp only [lookupStr]
      split
      · rename_i he
        subst he
        exfalso
        exact hnd.1 (by simpa [alKeys] using List.mem_map_of_mem Prod.fst h)
      · exact ih hnd.2 h

theorem lookupStr_eq_none_of_nil {β : Type} {k : String} :
    lookupStr ([] : List (String × β)) k = none := rfl

-- ─────────────────────────────────────────────────────────────
-- C1 / C10 : Run Diff Engine claims
-- ─────────────────────────────────────────────────────────────

/-- Baseline side of the counterexample: same natural key and same artifact
id as the candidate, different fingerprint. -/
def c1CexLeft : ArtifactDoc :=
  { kind := "k", name := "A", natural_key := some "a",
    artifact_id := some "id-x", fingerprint := some "fp1" }

/-- Candidate side of the counterexample. -/
def c1CexRight : ArtifactDoc :=
  { kind := "k", name := "A", natural_key := some "a",
    artifact_id := some "id-x", fingerprint := some "fp2" }

/-- C1 counterexample: the natural key "a" is present on both sides and its
fingerprint differs (fp1 vs fp2), so the claim classifies it "updated"; the
code classifies it "unchanged" because the artifact ids match (the code
tests `id matches or fingerprint matches`, not `id differs or fingerprint
differs`). -/
theorem c1_diff_updated_rule_counterexample :
    c1CexLeft.fingerprint ≠ c1CexRight.fingerprint ∧
    nkOf c1CexLeft = nkOf c1CexRight ∧
    computeArtifactsDiff [c1CexLeft] [c1CexRight] =
      { new := [], updated := [], unchanged := ["a"], retired := [] } := by
  refine ⟨by decide, rfl, rfl⟩

/-- Baseline run of the spec's concrete scenario: natural keys a, b with
fingerprints fp1, fp2; artifact ids distinct from the candidate side. -/
def c1Baseline : List ArtifactDoc :=
  [ { kind := "k", name := "A", natural_key := some "a",
      artifact_id := some "l-a", fingerprint := some "fp1" },
    { kind := "k", name := "B", natural_key := some "b",
      artifact_id := some "l-b", fingerprint := some "fp2" } ]

/-- Candidate run of the spec's concrete scenario: a (fp1), b (fp3), c (fp4). -/
def c1Candidate : List ArtifactDoc :=
  [ { kind := "k", name := "A", natural_key := some "a",
      artifact_id := some "r-a", fingerprint := some "fp1" },
    { kind := "k", name := "B", natural_key := some "b",
      artifact_id := some "r-b", fingerprint := some "fp3" },
    { kind := "k", name := "C", natural_key := some "c",
      artifact_id := some "r-c", fingerprint := some "fp4" } ]

/-- C1 (amended): for every natural key present on both sides, the key is
classified "unchanged" when the artifact ids are both non-empty and equal
OR the fingerprints are both non-empty and equal, and "updated" otherwise
(the claim's rule "updated when id differs or fingerprint differs" holds
only when neither ids nor fingerprints match); the spec's concrete scenario
(with the two sides holding distinct artifact ids) yields
new=[c], updated=[b], unchanged=[a], retired=[]. -/
theorem c1_diff_classification_amended :
    (∀ (left right : List ArtifactDoc) (k : String) (l r : ArtifactDoc),
        lookupStr (buildByNk left) k = some l →
        lookupStr (buildByNk right) k = some r →
        ((sameArtifact l r = true →
            k ∈ (computeArtifactsDiff left right).unchanged ∧
            k ∉ (computeArtifactsDiff left right).updated) ∧
         (sameArtifact l r = false →
            k ∈ (computeArtifactsDiff left right).updated ∧
            k ∉ (computeArtifactsDiff left right).unchanged))) ∧
    computeArtifactsDiff c1Baseline c1Candidate =
      { new := ["c"], updated := ["b"], unchanged := ["a"], retired := [] } := by
  constructor
  · intro left right k l r hL hR
    have hne : left ≠ [] := by
      intro h
      subst h
      simp [buildByNk, lookupStr] at hL
    have hRmem : (k, r) ∈ buildByNk right := lookupStr_eq_some_mem hR
    have hRnd := nodup_keys_buildByNk right
    have hdiff : computeArtifactsDiff left right =
        { new := sortStrings ((buildByNk right).filterMap fun p =>
            match lookupStr (buildByNk left) p.1 with
            | none => some p.1
            | some _ => none)
          updated := sortStrings ((buildByNk right).filterMap fun p =>
            match lookupStr (buildByNk left) p.1 with
            | none => none
            | some l => if sameArtifact l p.2 then none else some p.1)
          unchanged := sortStrings ((buildByNk right).filterMap fun p =>
            match lookupStr (buildByNk left) p.1 with
            | none => none
            | some l => if sameArtifact l p.2 then some p.1 else none)
          retired := sortStrings ((buildByNk left).filterMap fun p =>
            match lookupStr (buildByNk right) p.1 with
            | none => some p.1
            | some _ => none) } := by
      simp only [computeArtifactsDiff, if_neg hne]
    constructor
    · intro hsame
      constructor
      · rw [hdiff]
        simp only [mem_sortStrings, List.mem_filterMap]
        exact ⟨(k, r), hRmem, by simp [hL, hsame]⟩
      · rw [hdiff]
        simp only [mem_sortStrings, List.mem_filterMap]
        rintro ⟨⟨k', r'⟩, hmem, hsome⟩
        rcases hlk : lookupStr (buildByNk left) k' with _ | l'
        · rw [hlk] at hsome; simp at hsome
        · rw [hlk] at hsome
          have hsome' : (if sameArtifact l' r' = true then none else some k') =
              some k := hsome
          by_cases hs : sameArtifact l' r' = true
          · rw [if_pos hs] at hsome'; simp at hsome'
          · rw [if_neg hs] at hsome'
            have hk : k' = k := by simpa using hsome'
            subst hk
            have : r' = r := by
              have := lookupStr_of_mem_nodup hRnd hmem
              rw [hR] at this
              simpa using this.symm
            subst this
            rw [hL] at hlk
            have : l' = l := by simpa using hlk.symm
            subst this
            exact hs hsame
    · intro hsame
      constructor
      · rw [hdiff]
        simp only [mem_sortStrings, List.mem_filterMap]
        exact ⟨(k, r), hRmem, by simp [hL, hsame]⟩
      · rw [hdiff]
        simp only [mem_sortStrings, List.mem_filterMap]
        rintro ⟨⟨k', r'⟩, hmem, hsome⟩
        rcases hlk : lookupStr (buildByNk left) k' with _ | l'
        · rw [hlk] at hsome; simp at hsome
        · rw [hlk] at hsome
          have hsome' : (if sameArtifact l' r' = true then some k' else none) =
              some k := hsome
          by_cases hs : sameArtifact l' r' = true
          · rw [if_pos hs] at hsome'
            have hk : k' = k := by simpa using hsome'
            subst hk
            have : r' = r := by
              have := lookupStr_of_mem_nodup hRnd hmem
              rw [hR] at this
              simpa using this.symm
            subst this
            rw [hL] at hlk
            have : l' = l := by simpa using hlk.symm
            subst this
            rw [hsame] at hs
            exact Bool.false_ne_true hs
          · rw [if_neg hs] at hsome'; simp at hsome'
  · rfl

/-- C1 witness: the general classification rule applied at the
counterexample pair (ids match, fingerprints differ ⇒ unchanged). -/
theorem c1_diff_classification_amended_witness :
    "a" ∈ (computeArtifactsDiff [c1CexLeft] [c1CexRight]).unchanged ∧
    "a" ∉ (computeArtifactsDiff [c1CexLeft] [c1CexRight]).updated :=
  (c1_diff_classification_amended.1 [c1CexLeft] [c1CexRight] "a"
    c1CexLeft c1CexRight rfl rfl).1 rfl

/-- C10: the diff engine keys artifacts by lower-cased natural key, with a
lower-cased `kind:name` fallback when the natural key is absent, so two
artifacts whose natural keys differ only in letter case fall on the same
key and are never classified new/retired against each other. -/
theorem c10_diff_key_normalization :
    (∀ (a : ArtifactDoc) (s : String),
        a.natural_key = some s → s ≠ "" → nkOf a = pyLower s) ∧
    (∀ a : ArtifactDoc,
        a.natural_key = none → nkOf a = pyLower (a.kind ++ ":" ++ a.name)) ∧
    (∀ (l r : ArtifactDoc) (s1 s2 : String),
        l.natural_key = some s1 → r.natural_key = some s2 →
        s1 ≠ "" → s2 ≠ "" → pyLower s1 = pyLower s2 →
        (computeArtifactsDiff [l] [r]).new = [] ∧
        (computeArtifactsDiff [l] [r]).retired = []) := by
  refine ⟨?_, ?_, ?_⟩
  · intro a s h hne
    simp [nkOf, pyOrElseStr, h, hne]
  · intro a h
    simp [nkOf, pyOrElseStr, h]
  · intro l r s1 s2 h1 h2 hne1 hne2 hlow
    have hkey : nkOf l = nkOf r := by
      simp [nkOf, pyOrElseStr, h1, h2, hne1, hne2, hlow]
    have hnonempty : ([l] : List ArtifactDoc) ≠ [] := by simp
    constructor
    · simp only [computeArtifactsDiff, if_neg hnonempty, buildByNk,
        List.foldl, pyDictInsert, List.filterMap, lookupStr, hkey,
        if_pos rfl]
      rfl
    · simp only [computeArtifactsDiff, if_neg hnonempty, buildByNk,
        List.foldl, pyDictInsert, List.filterMap, lookupStr, hkey.symm,
        if_pos rfl]
      rfl

/-- C10 witness: two records whose natural keys differ only in case ("KeyA"
vs "keya") key identically, and the diff of the corresponding singleton runs
marks nothing new or retired. -/
theorem c10_diff_key_normalization_witness :
    nkOf { kind := "k", name := "A", natural_key := some "KeyA",
           artifact_id := some "x", fingerprint := some "f" } = pyLower "KeyA" ∧
    (computeArtifactsDiff
        [{ kind := "k", name := "A", natural_key := some "KeyA",
           artifact_id := some "x", fingerprint := some "f" }]
        [{ kind := "k", name := "B", natural_key := some "keya",
           artifact_id := some "y", fingerprint := some "g" }]).new = [] :=
  ⟨c10_diff_key_normalization.1 _ "KeyA" rfl (by decide),
   (c10_diff_key_normalization.2.2 _ _ "KeyA" "keya" rfl rfl (by decide)
      (by decide) (by decide)).1⟩

-- ─────────────────────────────────────────────────────────────
-- C3 : optimistic-concurrency guard on patch/replace
-- ─────────────────────────────────────────────────────────────

/-- The 412 error `_guard_if_match` raises. -/
def preconditionError (e : Int) (actual : Nat) : HttpError :=
  { status := 412
    detail := "Precondition Failed: expected version " ++ toString e ++
      ", actual " ++ toString actual }

/-- C3: for an artifact stored (live) at version N and any supplied
expected version E ≠ N, both the patch route and the replace route fail
with the 412 precondition error and return the store unchanged — no write
happens, so the stored artifact (and its version) is untouched. -/
theorem c3_optimistic_concurrency_guard
    (applyPatch : Json → Json → Except String Json)
    (db : Db) (ws aid : String) (art : ArtifactItem)
    (patch newData : Json) (prov : Option Json) (E : Int) (now : Nat)
    (hget : dalGetArtifact db ws aid = some art)
    (hlive : art.deleted_at = none)
    (hne : E ≠ (art.version : Int)) :
    patchArtifact applyPatch db ws aid patch prov (some E) now =
      (Except.error (preconditionError E art.version), db) ∧
    replaceArtifactRoute db ws aid newData prov (some E) now =
      (Except.error (preconditionError E art.version), db) := by
  have hguard : guardIfMatch (some E) art.version =
      Except.error (preconditionError E art.version) := by
    simp [guardIfMatch, hne, preconditionError]
  constructor
  · simp [patchArtifact, hget, hlive, hguard]
  · simp [replaceArtifactRoute, hget, hlive, hguard]

/-- Concrete store for the C3 witness: one live artifact at version 1. -/
def c3Art : ArtifactItem :=
  { artifact_id := "a1", kind := "cam.document", name := "Doc",
    data := Json.obj [], natural_key := none, fingerprint := none,
    version := 1, created_at := 0, updated_at := 0, deleted_at := none,
    provenance := none }

def c3Db : Db :=
  { workspaces := [{ workspace_id := "ws", artifacts := [c3Art],
                     updated_at := 0 }], patches := [] }

/-- C3 witness: patching the version-1 artifact with If-Match 999 gives the
412 error and an unchanged store. -/
theorem c3_optimistic_concurrency_guard_witness :
    patchArtifact (fun d _ => Except.ok d) c3Db "ws" "a1" Json.null none
      (some 999) 7 =
      (Except.error (preconditionError 999 1), c3Db) :=
  (c3_optimistic_concurrency_guard (fun d _ => Except.ok d) c3Db "ws" "a1"
    c3Art Json.null Json.null none 999 7 rfl rfl (by decide)).1

-- ─────────────────────────────────────────────────────────────
-- C8 : soft-delete semantics (code bug on the already-deleted case)
-- ─────────────────────────────────────────────────────────────

/-- An artifact already soft-deleted at time 5. -/
def c8Art : ArtifactItem :=
  { artifact_id := "a1", kind := "cam.document", name := "Doc",
    data := Json.obj [], natural_key := none, fingerprint := none,
    version := 2, created_at := 0, updated_at := 5, deleted_at := some 5,
    provenance := none }

def c8Db : Db :=
  { workspaces := [{ workspace_id := "ws", artifacts := [c8Art],
                     updated_at := 5 }], patches := [] }

/-- C8, evaluated at the failing input: deleting an artifact that is
already soft-deleted returns the artifact from the DAL (its old deletion
timestamp untouched), so the route answers success (204), not the
NotFound-equivalent the spec prescribes. The absent-artifact and
absent-workspace cases do 404. -/
theorem c8_soft_delete_already_deleted_divergence :
    (dalSoftDeleteArtifact c8Db "ws" "a1" 7).1 = some c8Art ∧
    (deleteArtifactRoute c8Db "ws" "a1" 7).1 = Except.ok () ∧
    c8Art.deleted_at = some 5 ∧
    (deleteArtifactRoute c8Db "ws" "missing" 7).1 =
      Except.error { status := 404, detail := "Not found or already deleted" } ∧
    (deleteArtifactRoute c8Db "nows" "a1" 7).1 =
      Except.error { status := 404, detail := "Not found or already deleted" } :=
  ⟨rfl, rfl, rfl, rfl, rfl⟩

-- ─────────────────────────────────────────────────────────────
-- C2 : upsert idempotence (spec-modelled `dal.upsert_artifact`)
-- ─────────────────────────────────────────────────────────────

theorem find?_updateWorkspaceFirst (l : List WorkspaceDoc) (ws : String)
    (f : WorkspaceDoc → WorkspaceDoc) (w : WorkspaceDoc)
    (h : l.find? (fun x => x.workspace_id == ws) = some w)
    (hid : (f w).workspace_id = w.workspace_id) :
    (updateWorkspaceFirst l ws f).find? (fun x => x.workspace_id == ws) =
      some (f w) := by
  induction l with
  | nil => simp at h
  | cons w0 rest ih =>
    by_cases h0 : (w0.workspace_id == ws) = true
    · have hw : w0 = w := by
        simp only [List.find?_cons, h0] at h
        exact Option.some.inj h
      subst hw
      simp only [updateWorkspaceFirst, if_pos h0]
      have h1 : ((f w0).workspace_id == ws) = true := by
        rw [hid]; exact h0
      simp only [List.find?_cons, h1]
    · have hb : (w0.workspace_id == ws) = false := by
        simpa using h0
      simp only [List.find?_cons, hb] at h
      simp only [updateWorkspaceFirst, if_neg h0]
      simp only [List.find?_cons, hb]
      exact ih h

/-- The natural key the spec-modelled upsert computes from its identity
paths (the `kind:name` fallback applies when the paths resolve to nothing). -/
def upsertNk (kind name : String) (paths : List String) (data : Json) : String :=
  computeNaturalKey kind name
    (some { natural_key := some (.ofList paths), summary_rule := none }) data

/-- The artifact the upsert inserts when no live artifact owns the key. -/
def insertedItem (kind name : String) (data : Json) (paths : List String)
    (prov : Option Json) (id1 : String) (now1 : Nat) : ArtifactItem :=
  { artifact_id := id1, kind := kind, name := name, data := data
    natural_key := some (upsertNk kind name paths data)
    fingerprint := some (fingerprint data)
    version := 1, created_at := now1, updated_at := now1
    deleted_at := none, provenance := prov }

/-- The store after that insert. -/
def insertedDb (db : Db) (ws : String) (item : ArtifactItem) (now1 : Nat) : Db :=
  { db with workspaces := (updateWorkspaceFirst db.workspaces ws
      (fun w0 =>
        { w0 with
          artifacts := w0.artifacts ++ [item]
          updated_at := now1 })) }

/-- C2: starting from a workspace holding no live artifact under the
computed natural key, two upserts of the same (workspace, kind, name) with
an identical canonicalized payload yield `insert` then `noop`; the second
call returns the artifact inserted by the first, performs no write (the
store after the second call is the store after the first), and leaves the
version at 1. -/
theorem c2_upsert_insert_then_noop
    (db : Db) (ws kind name : String) (data : Json)
    (paths : List String) (prov prov2 : Option Json)
    (id1 id2 : String) (now1 now2 : Nat) (w : WorkspaceDoc)
    (hws : findWorkspace db ws = some w)
    (hnone : findByNaturalKey w.artifacts kind
        (upsertNk kind name paths data) = none) :
    ∃ item db1,
      upsertArtifact db ws kind name data paths prov id1 now1 =
        Except.ok ((item, "insert"), db1) ∧
      upsertArtifact db1 ws kind name data paths prov2 id2 now2 =
        Except.ok ((item, "noop"), db1) ∧
      item.version = 1 := by
  refine ⟨insertedItem kind name data paths prov id1 now1,
          insertedDb db ws (insertedItem kind name data paths prov id1 now1)
            now1, ?_, ?_, rfl⟩
  · simp only [upsertArtifact, hws]
    rw [show computeNaturalKey kind name
        (some { natural_key := some (.ofList paths), summary_rule := none })
        data = upsertNk kind name paths data from rfl, hnone]
    rfl
  · have hws1 : findWorkspace
        (insertedDb db ws (insertedItem kind name data paths prov id1 now1)
          now1) ws =
        some { w with
               artifacts := w.artifacts ++
                 [insertedItem kind name data paths prov id1 now1]
               updated_at := now1 } := by
      exact find?_updateWorkspaceFirst db.workspaces ws _ w hws rfl
    have hfound : findByNaturalKey
        (w.artifacts ++ [insertedItem kind name data paths prov id1 now1])
        kind (upsertNk kind name paths data) =
        some (insertedItem kind name data paths prov id1 now1) := by
      unfold findByNaturalKey at hnone ⊢
      rw [List.find?_append, hnone]
      simp [insertedItem]
    simp only [upsertArtifact, hws1]
    rw [show computeNaturalKey kind name
        (some { natural_key := some (.ofList paths), summary_rule := none })
        data = upsertNk kind name paths data from rfl, hfound]
    simp [insertedItem]

/-- Concrete empty-workspace store for the C2 witness. -/
def c2Db : Db :=
  { workspaces := [{ workspace_id := "ws", artifacts := [], updated_at := 0 }],
    patches := [] }

/-- C2 witness: the theorem applied to the empty workspace and a concrete
payload. -/
theorem c2_upsert_insert_then_noop_witness :
    ∃ item db1,
      upsertArtifact c2Db "ws" "cam.document" "Doc"
        (Json.obj [("a", Json.num 1)]) [] none "id-1" 3 =
        Except.ok ((item, "insert"), db1) ∧
      upsertArtifact db1 "ws" "cam.document" "Doc"
        (Json.obj [("a", Json.num 1)]) [] none "id-2" 9 =
        Except.ok ((item, "noop"), db1) ∧
      item.version = 1 :=
  c2_upsert_insert_then_noop c2Db "ws" "cam.document" "Doc"
    (Json.obj [("a", Json.num 1)]) [] none none "id-1" "id-2" 3 9
    { workspace_id := "ws", artifacts := [], updated_at := 0 } rfl rfl

-- ─────────────────────────────────────────────────────────────
-- C4 : migration hop bound (code returns silently, no error)
-- ─────────────────────────────────────────────────────────────

/-- Schema version v1 of the cyclic kind: migrator v1 → v2. -/
def c4Entry1 : SchemaVersionEntry :=
  { version := "v1", json_schema := none, identity := none, adapters := []
    migrators := [{ from_version := "v1", to_version := some "v2",
                    type := "none", dsl := none }] }

/-- Schema version v2 of the cyclic kind: migrator v2 → v1. -/
def c4Entry2 : SchemaVersionEntry :=
  { version := "v2", json_schema := none, identity := none, adapters := []
    migrators := [{ from_version := "v2", to_version := some "v1",
                    type := "none", dsl := none }] }

/-- A kind whose migrators form a v1 ↔ v2 cycle while the latest version is
v3: every migration toward v3 exhausts the 50-hop bound. -/
def c4Kind : KindDoc :=
  { id := "cyc", aliases := [], latest_schema_version := "v3",
    schema_versions := [c4Entry1, c4Entry2] }

def c4Kinds : List KindDoc := [c4Kind]

/-- C4 counterexample: on the cyclic kind the migrator chain exceeds the
50-hop bound, yet `migrate_data` returns `ok` with the partially-migrated
document at the version reached on hop 50 ("v1" ≠ target "v3") — it
reports no configuration error to the caller. -/
theorem c4_migration_hop_bound_counterexample :
    migrateData c4Kinds "cyc" (Json.obj []) (some "v1") none =
      Except.ok (Json.obj [], "v1") ∧
    c4Kind.latest_schema_version = "v3" ∧ ("v1" : String) ≠ "v3" :=
  ⟨rfl, rfl, by decide⟩

/-- C4 (amended): exceeding the hop bound is silent — exhausted fuel makes
the migration loop return the document and version reached so far as a
success, and on the concrete cyclic kind every document comes back `ok` at
"v1" with no error. -/
theorem c4_migration_hop_bound_amended :
    (∀ (kinds : List KindDoc) (kindId target cur : String) (data : Json),
        migrateLoop kinds kindId target 0 cur data = Except.ok (data, cur)) ∧
    (∀ data : Json,
        migrateData c4Kinds "cyc" data (some "v1") none =
          Except.ok (data, "v1")) := by
  refine ⟨fun _ _ _ _ _ => rfl, fun data => rfl⟩

-- ─────────────────────────────────────────────────────────────
-- C5 : unknown from_version fails closed (via build_envelope)
-- ─────────────────────────────────────────────────────────────

/-- C5: a write whose declared (non-empty) `from_version` matches no
registered schema version of the kind fails: `migrate_data` stops at the
unknown version and the canonicalization step (`adapt_data` inside
`build_envelope`) then raises "Schema version not found", so the document
never passes through unvalidated. -/
theorem c5_unknown_from_version_fails_closed
    (check : Json → Json → Option String)
    (kinds : List KindDoc) (kindId name : String) (data : Json)
    (kd : KindDoc) (f : String)
    (hfind : kinds.find? (fun k => k.id == kindId) = some kd)
    (hunknown : ∀ e ∈ kd.schema_versions, e.version ≠ f)
    (hne : f ≠ "") :
    buildEnvelope check kinds kindId name data (some f) =
      Except.error ("Schema version not found for " ++ kd.id) := by
  have hbeq := List.find?_some hfind
  have hid : kd.id = kindId := eq_of_beq (by simpa using hbeq)
  subst hid
  have hres : resolveKind kinds kd.id = some kd := by
    simp [resolveKind, hfind]
  have hentry : getSchemaVersionEntry kinds kd.id (some f) = none := by
    simp only [getSchemaVersionEntry, hfind]
    rw [List.find?_eq_none]
    intro e he
    simpa using hunknown e he
  have hmig : migrateData kinds kd.id data (some f)
      (some kd.latest_schema_version) = Except.ok (data, f) := by
    by_cases hF : f = kd.latest_schema_version
    · simp [migrateData, hres, hne, hF]
    · simp only [migrateData, hres]
      rw [show (50 : Nat) = 49 + 1 from rfl]
      simp [migrateLoop, hne, hF, ite_self, hentry]
  have hadapt : adaptData kinds kd.id data (some f) =
      Except.error ("Schema version not found for " ++ kd.id) := by
    simp [adaptData, hres, hentry]
  simp only [buildEnvelope, hres, hmig]
  simp only [bind, Except.bind, hadapt]

/-- C5 witness: against the concrete registry, declaring the unregistered
from_version "v9" makes the envelope build fail. -/
theorem c5_unknown_from_version_fails_closed_witness :
    buildEnvelope (fun _ _ => none) c4Kinds "cyc" "n" (Json.obj [])
      (some "v9") = Except.error ("Schema version not found for " ++ "cyc") :=
  c5_unknown_from_version_fails_closed (fun _ _ => none) c4Kinds "cyc" "n"
    (Json.obj []) c4Kind "v9" rfl (by decide) (by decide)

-- ─────────────────────────────────────────────────────────────
-- C6 : adapter idempotence (fails in general; holds for flat set-rules)
-- ─────────────────────────────────────────────────────────────

theorem lookupStr_pyDictInsert_self {β : Type} (m : List (String × β))
    (k : String) (v : β) : lookupStr (pyDictInsert m k v) k = some v := by
  induction m with
  | nil => simp [pyDictInsert, lookupStr]
  | cons p rest ih =>
    obtain ⟨k0, v0⟩ := p
    simp only [pyDictInsert]
    split
    · simp [lookupStr]
    · rename_i hne
      simp only [lookupStr]
      rw [if_neg hne]
      exact ih

theorem lookupStr_pyDictInsert_ne {β : Type} (m : List (String × β))
    (k : String) (v : β) (k' : String) (h : k' ≠ k) :
    lookupStr (pyDictInsert m k v) k' = lookupStr m k' := by
  induction m with
  | nil =>
    simp only [pyDictInsert, lookupStr]
    rw [if_neg (Ne.symm h)]
  | cons p rest ih =>
    obtain ⟨k0, v0⟩ := p
    simp only [pyDictInsert]
    split
    · rename_i he
      subst he
      simp only [lookupStr]
      rw [if_neg (fun he2 => h he2.symm), if_neg (fun he2 => h he2.symm)]
    · simp only [lookupStr]
      split
      · rfl
      · exact ih

theorem pyDictInsert_eq_self {β : Type} (m : List (String × β))
    (k : String) (v : β) (h : lookupStr m k = some v) :
    pyDictInsert m k v = m := by
  induction m with
  | nil => simp [lookupStr] at h
  | cons p rest ih =>
    obtain ⟨k0, v0⟩ := p
    simp only [lookupStr] at h
    simp only [pyDictInsert]
    split
    · rename_i he
      rw [if_pos (he ▸ rfl)] at h
      obtain rfl : v0 = v := Option.some.inj h
      rw [he]
    · rename_i hne
      rw [if_neg hne] at h
      rw [ih h]

/-- The entry fold of a flat `set` phase. -/
def flatSetFold (sets : List (String × Json)) (d : List (String × Json)) :
    List (String × Json) :=
  sets.foldl (fun m pv => pyDictInsert m pv.1 pv.2) d

theorem lookup_flatSetFold_not_mem (sets : List (String × Json))
    (m : List (String × Json)) (k : String)
    (h : k ∉ sets.map Prod.fst) :
    lookupStr (flatSetFold sets m) k = lookupStr m k := by
  induction sets generalizing m with
  | nil => rfl
  | cons pv rest ih =>
    simp only [List.map, List.mem_cons] at h
    push_neg at h
    simp only [flatSetFold, List.foldl] at ih ⊢
    rw [ih _ h.2, lookupStr_pyDictInsert_ne _ _ _ _ h.1]

theorem lookup_flatSetFold_self (sets : List (String × Json))
    (d : List (String × Json)) (hnd : (sets.map Prod.fst).Nodup) :
    ∀ pv ∈ sets, lookupStr (flatSetFold sets d) pv.1 = some pv.2 := by
  induction sets generalizing d with
  | nil => intro pv h; simp at h
  | cons q rest ih =>
    simp only [List.map, List.nodup_cons] at hnd
    intro pv hmem
    rcases List.mem_cons.mp hmem with rfl | hmem2
    · simp only [flatSetFold, List.foldl]
      rw [show rest.foldl (fun m pv => pyDictInsert m pv.1 pv.2)
          (pyDictInsert d pv.1 pv.2) =
          flatSetFold rest (pyDictInsert d pv.1 pv.2) from rfl]
      rw [lookup_flatSetFold_not_mem rest _ pv.1 hnd.1]
      exact lookupStr_pyDictInsert_self d pv.1 pv.2
    · simp only [flatSetFold, List.foldl]
      exact ih (pyDictInsert d q.1 q.2) hnd.2 pv hmem2

theorem flatSetFold_id (sets : List (String × Json))
    (m : List (String × Json))
    (h : ∀ pv ∈ sets, lookupStr m pv.1 = some pv.2) :
    flatSetFold sets m = m := by
  induction sets with
  | nil => rfl
  | cons q rest ih =>
    simp only [flatSetFold, List.foldl]
    rw [pyDictInsert_eq_self m q.1 q.2 (h q (by simp))]
    exact ih (fun pv hpv => h pv (by simp [hpv]))

theorem setPhaseFold (sets : List (String × Json)) (d : List (String × Json))
    (hflat : ∀ pv ∈ sets, pySplitDot pv.1 = [pv.1]) :
    sets.foldlM (fun out pv => dotSet out pv.1 pv.2) (Json.obj d) =
      Except.ok (Json.obj (flatSetFold sets d)) := by
  induction sets generalizing d with
  | nil => rfl
  | cons pv rest ih =>
    have hsp : pySplitDot pv.1 = [pv.1] := hflat pv (by simp)
    have hd : dotSet (Json.obj d) pv.1 pv.2 =
        Except.ok (Json.obj (pyDictInsert d pv.1 pv.2)) := by
      simp [dotSet, hsp, dotSetParts]
    simp only [List.foldlM, hd, bind, Except.bind]
    exact ih _ (fun q hq => hflat q (by simp [hq]))

/-- A rule consisting only of `set` entries. -/
def setOnlyRule (sets : List (String × Json)) : AdapterDsl :=
  { move := [], set := sets, defaults := [], delete := [] }

theorem applyAdapterDsl_setOnly (d : List (String × Json))
    (sets : List (String × Json))
    (hflat : ∀ pv ∈ sets, pySplitDot pv.1 = [pv.1]) :
    applyAdapterDsl (Json.obj d) (setOnlyRule sets) =
      Except.ok (Json.obj (flatSetFold sets d)) := by
  simp only [applyAdapterDsl, setOnlyRule, List.foldlM, bind, Except.bind,
    pure, Except.pure]
  rw [setPhaseFold sets d hflat]

/-- The C6 rule that refutes idempotence: delete the first list element. -/
def c6Rule : AdapterDsl :=
  { move := [], set := [], defaults := [], delete := ["xs.0"] }

/-- C6 counterexample: `delete ["xs.0"]` pops a list element on every
application, so `apply(apply(doc, rule), rule) ≠ apply(doc, rule)` for
`doc = {"xs": [1, 2]}`. -/
theorem c6_adapter_idempotence_counterexample :
    applyAdapterDsl (Json.obj [("xs", Json.arr [Json.num 1, Json.num 2])])
      c6Rule = Except.ok (Json.obj [("xs", Json.arr [Json.num 2])]) ∧
    applyAdapterDsl (Json.obj [("xs", Json.arr [Json.num 2])]) c6Rule =
      Except.ok (Json.obj [("xs", Json.arr [])]) ∧
    Json.obj [("xs", Json.arr [])] ≠
      Json.obj [("xs", Json.arr [Json.num 2])] := by
  refine ⟨rfl, rfl, ?_⟩
  intro h
  simp at h

/-- C6 (amended): adapter application is idempotent for rules consisting
only of `set` operations on distinct dot-free paths applied to an object
document (general rules are not idempotent: see the counterexample — a
list-index `delete` pops repeatedly, and `move` combined with `set` on the
source path re-creates the moved key). -/
theorem c6_adapter_idempotence_amended
    (d : List (String × Json)) (sets : List (String × Json))
    (hflat : ∀ pv ∈ sets, pySplitDot pv.1 = [pv.1])
    (hnd : (sets.map Prod.fst).Nodup) :
    ∃ out, applyAdapterDsl (Json.obj d) (setOnlyRule sets) = Except.ok out ∧
      applyAdapterDsl out (setOnlyRule sets) = Except.ok out := by
  refine ⟨Json.obj (flatSetFold sets d),
    applyAdapterDsl_setOnly d sets hflat, ?_⟩
  rw [applyAdapterDsl_setOnly _ sets hflat]
  have : flatSetFold sets (flatSetFold sets d) = flatSetFold sets d :=
    flatSetFold_id sets _ (lookup_flatSetFold_self sets d hnd)
  rw [this]

/-- C6 witness: the amended idempotence applied to a concrete rule and
document. -/
theorem c6_adapter_idempotence_amended_witness :
    ∃ out,
      applyAdapterDsl (Json.obj [("a", Json.num 1)])
        (setOnlyRule [("a", Json.num 2), ("b", Json.null)]) =
        Except.ok out ∧
      applyAdapterDsl out (setOnlyRule [("a", Json.num 2), ("b", Json.null)]) =
        Except.ok out :=
  c6_adapter_idempotence_amended [("a", Json.num 1)]
    [("a", Json.num 2), ("b", Json.null)] (by decide) (by decide)

-- ─────────────────────────────────────────────────────────────
-- C7 : fingerprint stability.
-- Part 1: the key-sorted canonical form of a payload, and invariance of
-- the canonical serialization under it.
-- ─────────────────────────────────────────────────────────────

mutual

/-- The key-sorted normal form of a payload: two Python dicts are equal as
maps (same keys, equal values, any insertion order) exactly when their
canonical forms coincide, keys being unique in a dict. -/
def canonicalForm : Json → Json
  | .null => .null
  | .bool b => .bool b
  | .num i => .num i
  | .str s => .str s
  | .arr xs => .arr (canonicalFormList xs)
  | .obj l => .obj (sortEntries (canonicalFormEntries l))

def canonicalFormList : List Json → List Json
  | [] => []
  | x :: xs => canonicalForm x :: canonicalFormList xs

def canonicalFormEntries : List (String × Json) → List (String × Json)
  | [] => []
  | (k, v) :: rest => (k, canonicalForm v) :: canonicalFormEntries rest

end

/-- No string occurs twice. -/
def nodupKeys : List String → Bool
  | [] => true
  | k :: rest => !(rest.contains k) && nodupKeys rest

mutual

/-- Well-formedness of a payload that came out of Python dicts: object
keys are unique at every level. -/
def wfJson : Json → Bool
  | .arr xs => wfJsonList xs
  | .obj l => nodupKeys (l.map Prod.fst) && wfJsonEntries l
  | _ => true

def wfJsonList : List Json → Bool
  | [] => true
  | x :: xs => wfJson x && wfJsonList xs

def wfJsonEntries : List (String × Json) → Bool
  | [] => true
  | (_, v) :: rest => wfJson v && wfJsonEntries rest

end

theorem nodupKeys_iff (ks : List String) : nodupKeys ks = true ↔ ks.Nodup := by
  induction ks with
  | nil => simp [nodupKeys]
  | cons k rest ih => simp [nodupKeys, ih]

-- ── the key order ────────────────────────────────────────────

theorem charListLt_trans {a b c : List Char} (h1 : charListLt a b = true)
    (h2 : charListLt b c = true) : charListLt a c = true := by
  induction a generalizing b c with
  | nil =>
    cases b with
    | nil => simp [charListLt] at h1
    | cons y ys =>
      cases c with
      | nil => simp [charListLt] at h2
      | cons z zs => simp [charListLt]
  | cons x xs ih =>
    cases b with
    | nil => simp [charListLt] at h1
    | cons y ys =>
      cases c with
      | nil => simp [charListLt] at h2
      | cons z zs =>
        simp only [charListLt] at h1 h2 ⊢
        rcases Nat.lt_trichotomy x.toNat y.toNat with hxy | hxy | hxy
        · rcases Nat.lt_trichotomy y.toNat z.toNat with hyz | hyz | hyz
          · rw [if_pos (Nat.lt_trans hxy hyz)]
          · rw [if_pos (hyz ▸ hxy)]
          · rw [if_neg (by omega), if_pos hyz] at h2
            simp at h2
        · rcases Nat.lt_trichotomy y.toNat z.toNat with hyz | hyz | hyz
          · rw [if_pos (hxy ▸ hyz)]
          · rw [if_neg (by omega), if_neg (by omega)]
            rw [if_neg (by omega), if_neg (by omega)] at h1
            rw [if_neg (by omega), if_neg (by omega)] at h2
            exact ih h1 h2
          · rw [if_neg (by omega), if_pos hyz] at h2
            simp at h2
        · rw [if_neg (by omega), if_pos hxy] at h1
          simp at h1

theorem charListLt_connex {a b : List Char} (h : a ≠ b) :
    charListLt a b = true ∨ charListLt b a = true := by
  induction a generalizing b with
  | nil =>
    cases b with
    | nil => exact absurd rfl h
    | cons y ys => left; simp [charListLt]
  | cons x xs ih =>
    cases b with
    | nil => right; simp [charListLt]
    | cons y ys =>
      simp only [charListLt]
      rcases Nat.lt_trichotomy x.toNat y.toNat with hxy | hxy | hxy
      · left; rw [if_pos hxy]
      · have hx : x = y := Char.ext (UInt32.toNat.inj hxy)
        subst hx
        have hne : xs ≠ ys := fun he => h (he ▸ rfl)
        rcases ih hne with h1 | h1
        · left
          rw [if_neg (by omega), if_neg (by omega)]
          exact h1
        · right
          rw [if_neg (by omega), if_neg (by omega)]
          exact h1
      · right; rw [if_pos hxy]

/-- Strict key order between entries. -/
def entKeyLt {β : Type} (a b : String × β) : Prop :=
  charListLt a.1.data b.1.data = true

theorem stringData_inj {s t : String} (h : s.data = t.data) : s = t :=
  congrArg String.mk h

theorem mem_insertEntry {β : Type} {e e' : String × β}
    {l : List (String × β)} : e' ∈ insertEntry e l ↔ e' = e ∨ e' ∈ l := by
  induction l with
  | nil => simp [insertEntry]
  | cons y ys ih =>
    simp only [insertEntry]
    split
    · simp
    · simp [ih]
      tauto

theorem insertEntry_sorted {β : Type} {e : String × β}
    {l : List (String × β)} (hs : l.Pairwise entKeyLt)
    (hne : ∀ y ∈ l, y.1 ≠ e.1) :
    (insertEntry e l).Pairwise entKeyLt := by
  induction l with
  | nil => simp [insertEntry]
  | cons y ys ih =>
    rw [List.pairwise_cons] at hs
    simp only [insertEntry]
    split
    · rename_i hlt
      rw [List.pairwise_cons]
      constructor
      · intro z hz
        rcases List.mem_cons.mp hz with rfl | hz2
        · exact hlt
        · exact charListLt_trans hlt (hs.1 z hz2)
      · exact List.pairwise_cons.mpr hs
    · rename_i hnlt
      have hkey : y.1 ≠ e.1 := hne y (by simp)
      have hdata : e.1.data ≠ y.1.data := by
        intro hd
        exact hkey (stringData_inj hd).symm
      have hylt : charListLt y.1.data e.1.data = true := by
        rcases charListLt_connex hdata with h1 | h1
        · exact absurd h1 (by simpa using hnlt)
        · exact h1
      rw [List.pairwise_cons]
      constructor
      · intro z hz
        rcases mem_insertEntry.mp hz with rfl | hz2
        · exact hylt
        · exact hs.1 z hz2
      · exact ih hs.2 (fun z hz => hne z (by simp [hz]))

theorem insertEntry_perm {β : Type} (e : String × β) (l : List (String × β)) :
    List.Perm (insertEntry e l) (e :: l) := by
  induction l with
  | nil => simp [insertEntry]
  | cons y ys ih =>
    simp only [insertEntry]
    split
    · exact List.Perm.refl _
    · exact ((ih.cons y).trans (List.Perm.swap e y ys))

theorem sortEntries_perm {β : Type} (l : List (String × β)) :
    List.Perm (sortEntries l) l := by
  induction l with
  | nil => exact List.Perm.refl _
  | cons x xs ih =>
    exact (insertEntry_perm x (sortEntries xs)).trans (ih.cons x)

theorem sortEntries_sorted {β : Type} (l : List (String × β))
    (hnd : (l.map Prod.fst).Nodup) : (sortEntries l).Pairwise entKeyLt := by
  induction l with
  | nil => simp [sortEntries]
  | cons x xs ih =>
    simp only [List.map, List.nodup_cons] at hnd
    refine insertEntry_sorted (ih hnd.2) ?_
    intro y hy
    have hyxs : y ∈ xs := (sortEntries_perm xs).mem_iff.mp hy
    intro he
    exact hnd.1 (he ▸ List.mem_map_of_mem Prod.fst hyxs)

theorem insertEntry_of_lt_head {β : Type} (e : String × β)
    (l : List (String × β)) (h : ∀ y ∈ l, entKeyLt e y) :
    insertEntry e l = e :: l := by
  cases l with
  | nil => rfl
  | cons y ys =>
    simp only [insertEntry]
    have hlt : charListLt e.1.data y.1.data = true := h y (by simp)
    rw [if_pos hlt]

theorem sortEntries_of_sorted {β : Type} (l : List (String × β))
    (h : l.Pairwise entKeyLt) : sortEntries l = l := by
  induction l with
  | nil => rfl
  | cons x xs ih =>
    rw [List.pairwise_cons] at h
    show insertEntry x (sortEntries xs) = x :: xs
    rw [ih h.2]
    exact insertEntry_of_lt_head x xs h.1

theorem sortEntries_idem {β : Type} (l : List (String × β))
    (hnd : (l.map Prod.fst).Nodup) :
    sortEntries (sortEntries l) = sortEntries l :=
  sortEntries_of_sorted _ (sortEntries_sorted l hnd)

-- ── serialization commutes with value mapping and sorting ────

theorem insertEntry_map {β γ : Type} (f : β → γ) (e : String × β)
    (l : List (String × β)) :
    insertEntry (e.1, f e.2) (l.map (fun p => (p.1, f p.2))) =
      (insertEntry e l).map (fun p => (p.1, f p.2)) := by
  induction l with
  | nil => simp [insertEntry]
  | cons y ys ih =>
    simp only [List.map, insertEntry]
    split
    · simp
    · simp only [List.map]
      rw [ih]

theorem sortEntries_map {β γ : Type} (f : β → γ) (l : List (String × β)) :
    sortEntries (l.map (fun p => (p.1, f p.2))) =
      (sortEntries l).map (fun p => (p.1, f p.2)) := by
  induction l with
  | nil => rfl
  | cons x xs ih =>
    show insertEntry (x.1, f x.2) (sortEntries (xs.map _)) = _
    rw [ih]
    exact insertEntry_map f x (sortEntries xs)

theorem canonicalEntries_eq_map (l : List (String × Json)) :
    canonicalEntries l = l.map (fun p => (p.1, canonicalChars p.2)) := by
  induction l with
  | nil => rfl
  | cons p rest ih =>
    obtain ⟨k, v⟩ := p
    simp only [canonicalEntries, List.map]
    rw [ih]

theorem canonicalFormEntries_eq_map (l : List (String × Json)) :
    canonicalFormEntries l = l.map (fun p => (p.1, canonicalForm p.2)) := by
  induction l with
  | nil => rfl
  | cons p rest ih =>
    obtain ⟨k, v⟩ := p
    simp only [canonicalFormEntries, List.map]
    rw [ih]

theorem canonicalList_eq_map (xs : List Json) :
    canonicalList xs = xs.map canonicalChars := by
  induction xs with
  | nil => rfl
  | cons x rest ih =>
    simp only [canonicalList, List.map]
    rw [ih]

theorem canonicalFormList_eq_map (xs : List Json) :
    canonicalFormList xs = xs.map canonicalForm := by
  induction xs with
  | nil => rfl
  | cons x rest ih =>
    simp only [canonicalFormList, List.map]
    rw [ih]

mutual

/-- Serializing a payload's canonical form gives the same characters as
serializing the payload itself — the serializer already sorts keys. -/
theorem canonicalChars_canonicalForm :
    ∀ (d : Json), wfJson d = true →
      canonicalChars (canonicalForm d) = canonicalChars d
  | .null, _ => rfl
  | .bool true, _ => rfl
  | .bool false, _ => rfl
  | .num _, _ => rfl
  | .str _, _ => rfl
  | .arr xs, h => by
    simp only [canonicalForm, canonicalChars]
    rw [canonicalList_cfList xs (by simpa [wfJson] using h)]
  | .obj l, h => by
    simp only [wfJson, Bool.and_eq_true] at h
    have hnd : (l.map Prod.fst).Nodup := (nodupKeys_iff _).mp h.1
    simp only [canonicalForm, canonicalChars]
    have h1 : canonicalEntries (sortEntries (canonicalFormEntries l)) =
        sortEntries (canonicalEntries (canonicalFormEntries l)) := by
      rw [canonicalEntries_eq_map, ← sortEntries_map, ← canonicalEntries_eq_map]
    have h2 : canonicalEntries (canonicalFormEntries l) = canonicalEntries l :=
      canonicalEntries_cfEntries l h.2
    have hndc : ((canonicalEntries l).map Prod.fst).Nodup := by
      rw [canonicalEntries_eq_map]
      simpa [List.map_map, Function.comp] using hnd
    rw [h1, h2, sortEntries_idem _ hndc]

theorem canonicalList_cfList :
    ∀ (xs : List Json), wfJsonList xs = true →
      canonicalList (canonicalFormList xs) = canonicalList xs
  | [], _ => rfl
  | x :: xs, h => by
    simp only [wfJsonList, Bool.and_eq_true] at h
    simp only [canonicalFormList, canonicalList]
    rw [canonicalChars_canonicalForm x h.1, canonicalList_cfList xs h.2]

theorem canonicalEntries_cfEntries :
    ∀ (l : List (String × Json)), wfJsonEntries l = true →
      canonicalEntries (canonicalFormEntries l) = canonicalEntries l
  | [], _ => rfl
  | (k, v) :: rest, h => by
    simp only [wfJsonEntries, Bool.and_eq_true] at h
    simp only [canonicalFormEntries, canonicalEntries]
    rw [canonicalChars_canonicalForm v h.1, canonicalEntries_cfEntries rest h.2]

end

/-- Key-reorder invariance at the fingerprint level: payloads with unique
keys that are equal as maps (same canonical form) fingerprint identically. -/
theorem fingerprint_eq_of_canonicalForm_eq (d1 d2 : Json)
    (h1 : wfJson d1 = true) (h2 : wfJson d2 = true)
    (heq : canonicalForm d1 = canonicalForm d2) :
    fingerprint d1 = fingerprint d2 := by
  unfold fingerprint
  rw [← canonicalChars_canonicalForm d1 h1,
      ← canonicalChars_canonicalForm d2 h2, heq]

-- ─────────────────────────────────────────────────────────────
-- C7, part 2: changing one leaf along a structural path, and how the
-- change travels through sorting and serialization.
-- ─────────────────────────────────────────────────────────────

/-- One step of a structural path into a payload. -/
inductive PathSeg where
  | key : String → PathSeg
  | idx : Nat → PathSeg

/-- Read the value at a structural path (object key / array index). -/
def getPath : Json → List PathSeg → Option Json
  | d, [] => some d
  | .obj l, .key k :: rest =>
    match lookupStr l k with
    | some c => getPath c rest
    | none => none
  | .arr xs, .idx i :: rest =>
    match xs.get? i with
    | some c => getPath c rest
    | none => none
  | _, _ => none

/-- Replace the value at an existing structural path. -/
def setPath : Json → List PathSeg → Json → Option Json
  | _, [], v => some v
  | .obj l, .key k :: rest, v =>
    match lookupStr l k with
    | some c => (setPath c rest v).map (fun c2 => Json.obj (pyDictInsert l k c2))
    | none => none
  | .arr xs, .idx i :: rest, v =>
    match xs.get? i with
    | some c => (setPath c rest v).map (fun c2 => Json.arr (xs.set i c2))
    | none => none
  | _, _, _ => none

/-- A JSON leaf value. -/
def isScalar : Json → Bool
  | .null => true
  | .bool _ => true
  | .num _ => true
  | .str _ => true
  | _ => false

/-- Two entry lists that agree everywhere except the value at one
position (same key there). -/
inductive OneDiff {β : Type} :
    List (String × β) → List (String × β) → String → β → β → Prop
  | head (k : String) (v v' : β) (t : List (String × β)) :
      OneDiff ((k, v) :: t) ((k, v') :: t) k v v'
  | tail (e : String × β) {t1 t2 : List (String × β)} {k : String} {v v' : β} :
      OneDiff t1 t2 k v v' → OneDiff (e :: t1) (e :: t2) k v v'

theorem OneDiff.insertEntry_congr {β : Type} {l1 l2 : List (String × β)}
    {k : String} {v v' : β} (e : String × β)
    (h : OneDiff l1 l2 k v v') :
    OneDiff (insertEntry e l1) (insertEntry e l2) k v v' := by
  induction h with
  | head k0 v0 v0' t =>
    simp only [insertEntry]
    split
    · exact .tail e (.head k0 v0 v0' t)
    · exact .head k0 v0 v0' (insertEntry e t)
  | tail e0 h0 ih =>
    simp only [insertEntry]
    split
    · exact .tail e (.tail e0 h0)
    · exact .tail e0 ih

theorem OneDiff.insertEntry_pair {β : Type} (S : List (String × β))
    (k : String) (v v' : β) :
    OneDiff (insertEntry (k, v) S) (insertEntry (k, v') S) k v v' := by
  induction S with
  | nil => exact .head k v v' []
  | cons y ys ih =>
    simp only [insertEntry]
    split
    · exact .head k v v' (y :: ys)
    · exact .tail y ih

theorem OneDiff.sortEntries_congr {β : Type} {l1 l2 : List (String × β)}
    {k : String} {v v' : β} (h : OneDiff l1 l2 k v v') :
    OneDiff (sortEntries l1) (sortEntries l2) k v v' := by
  induction h with
  | head k0 v0 v0' t =>
    exact OneDiff.insertEntry_pair (sortEntries t) k0 v0 v0'
  | tail e0 h0 ih =>
    exact OneDiff.insertEntry_congr e0 ih

theorem OneDiff.split {β : Type} {l1 l2 : List (String × β)} {k : String}
    {v v' : β} (h : OneDiff l1 l2 k v v') :
    ∃ A B, l1 = A ++ (k, v) :: B ∧ l2 = A ++ (k, v') :: B := by
  induction h with
  | head k0 v0 v0' t => exact ⟨[], t, rfl, rfl⟩
  | tail e0 h0 ih =>
    obtain ⟨A, B, hA, hB⟩ := ih
    exact ⟨e0 :: A, B, by simp [hA], by simp [hB]⟩

theorem OneDiff.map_val {β γ : Type} {l1 l2 : List (String × β)} {k : String}
    {v v' : β} (f : β → γ) (h : OneDiff l1 l2 k v v') :
    OneDiff (l1.map (fun p => (p.1, f p.2))) (l2.map (fun p => (p.1, f p.2)))
      k (f v) (f v') := by
  induction h with
  | head k0 v0 v0' t => exact .head k0 (f v0) (f v0') _
  | tail e0 h0 ih => exact .tail _ ih

theorem oneDiff_pyDictInsert {β : Type} {l : List (String × β)} {k : String}
    {v : β} (v' : β) (h : lookupStr l k = some v) :
    OneDiff l (pyDictInsert l k v') k v v' := by
  induction l with
  | nil => simp [lookupStr] at h
  | cons p rest ih =>
    obtain ⟨k0, v0⟩ := p
    simp only [lookupStr] at h
    simp only [pyDictInsert]
    by_cases he : k0 = k
    · subst he
      rw [if_pos rfl] at h
      obtain rfl : v0 = v := Option.some.inj h
      rw [if_pos rfl]
      exact .head k0 _ v' rest
    · rw [if_neg he] at h
      rw [if_neg he]
      exact .tail (k0, v0) (ih h)

theorem lookupStr_map_val {β γ : Type} (f : β → γ) (l : List (String × β))
    (k : String) :
    lookupStr (l.map (fun p => (p.1, f p.2))) k = (lookupStr l k).map f := by
  induction l with
  | nil => rfl
  | cons p rest ih =>
    obtain ⟨k0, v0⟩ := p
    simp only [List.map, lookupStr]
    split
    · rfl
    · exact ih

theorem pyDictInsert_map_val {β γ : Type} (f : β → γ)
    (l : List (String × β)) (k : String) (v : β) :
    (pyDictInsert l k v).map (fun p => (p.1, f p.2)) =
      pyDictInsert (l.map (fun p => (p.1, f p.2))) k (f v) := by
  induction l with
  | nil => rfl
  | cons p rest ih =>
    obtain ⟨k0, v0⟩ := p
    simp only [pyDictInsert, List.map]
    split
    · rename_i he
      subst he
      simp [pyDictInsert]
    · rename_i he
      simp only [List.map, pyDictInsert]
      rw [ih]

/-- The comma-joined serialization around one position depends only on the
surrounding pre-serialized values. -/
theorem joinComma_split (A B : List (List Char)) :
    ∃ P S, ∀ X, joinComma (A ++ X :: B) = P ++ X ++ S := by
  induction A with
  | nil =>
    cases B with
    | nil => exact ⟨[], [], fun X => by simp [joinComma]⟩
    | cons b bs =>
      exact ⟨[], ',' :: joinComma (b :: bs), fun X => by simp [joinComma]⟩
  | cons a A2 ih =>
    obtain ⟨P, S, hPS⟩ := ih
    refine ⟨a ++ ',' :: P, S, fun X => ?_⟩
    have hne : A2 ++ X :: B = (A2 ++ X :: B).head! :: (A2 ++ X :: B).tail := by
      cases A2 <;> simp
    show joinComma (a :: (A2 ++ X :: B)) = (a ++ ',' :: P) ++ X ++ S
    cases hAB : A2 ++ X :: B with
    | nil => exact absurd hAB (by cases A2 <;> simp)
    | cons y ys =>
      simp only [joinComma]
      rw [← hAB, hPS X]
      simp

/-- A successful `get?` splits the list, and `set` at the same index
replaces exactly that slot. -/
theorem get?_set_split {α : Type} (l : List α) (i : Nat) (x : α)
    (h : l.get? i = some x) :
    ∃ A B, l = A ++ x :: B ∧ A.length = i ∧
      ∀ y, l.set i y = A ++ y :: B := by
  induction l generalizing i with
  | nil => simp at h
  | cons a rest ih =>
    cases i with
    | zero =>
      obtain rfl : a = x := by simpa using h
      exact ⟨[], rest, rfl, rfl, fun y => rfl⟩
    | succ j =>
      obtain ⟨A, B, hAB, hlen, hset⟩ := ih j (by simpa using h)
      refine ⟨a :: A, B, by simp [hAB], by simp [hlen], fun y => ?_⟩
      simp [List.set, hset y]

-- ─────────────────────────────────────────────────────────────
-- C7, part 3: scalar serializations are injective.
-- ─────────────────────────────────────────────────────────────

theorem char48_toNat (n : Nat) (h : n < 10) :
    (Char.ofNat (48 + n)).toNat = 48 + n := by
  interval_cases n <;> decide

theorem natDigits_ne_nil (n : Nat) : natDigits n ≠ [] := by
  rw [natDigits]
  split
  · simp
  · simp

theorem natDigits_head_digit :
    ∀ n : Nat, ∃ c rest, natDigits n = c :: rest ∧
      48 ≤ c.toNat ∧ c.toNat ≤ 57
  | n => by
    rw [natDigits]
    split
    · rename_i h
      refine ⟨Char.ofNat (48 + n), [], rfl, ?_, ?_⟩ <;>
        rw [char48_toNat n h] <;> omega
    · rename_i h
      obtain ⟨c, rest, hd, h1, h2⟩ := natDigits_head_digit (n / 10)
      exact ⟨c, rest ++ [Char.ofNat (48 + n % 10)], by rw [hd]; simp, h1, h2⟩
  termination_by n => n
  decreasing_by exact Nat.div_lt_self (by omega) (by omega)

theorem natDigits_inj : ∀ a b : Nat, natDigits a = natDigits b → a = b
  | a, b => by
    intro h
    by_cases ha : a < 10 <;> by_cases hb : b < 10
    · rw [natDigits, dif_pos ha] at h
      rw [natDigits, dif_pos hb] at h
      have hh := congrArg (fun l => List.head? l) h
      simp at hh
      have := congrArg Char.toNat hh
      rw [char48_toNat a ha, char48_toNat b hb] at this
      omega
    · exfalso
      rw [natDigits, dif_pos ha] at h
      rw [natDigits, dif_neg hb] at h
      have hlen := congrArg List.length h
      obtain ⟨c, rest, hd, _, _⟩ := natDigits_head_digit (b / 10)
      rw [hd] at hlen
      simp at hlen
    · exfalso
      rw [natDigits, dif_neg ha] at h
      conv at h => rhs; rw [natDigits]
      rw [dif_pos hb] at h
      have hlen := congrArg List.length h
      obtain ⟨c, rest, hd, _, _⟩ := natDigits_head_digit (a / 10)
      rw [hd] at hlen
      simp at hlen
    · rw [natDigits, dif_neg ha] at h
      conv at h => rhs; rw [natDigits]
      rw [dif_neg hb] at h
      have hsplit := List.append_inj' h (by simp)
      have hdiv : a / 10 = b / 10 := natDigits_inj (a / 10) (b / 10) hsplit.1
      have hmod : a % 10 = b % 10 := by
        have hh := congrArg (fun l => List.head? l) hsplit.2
        simp at hh
        have := congrArg Char.toNat hh
        rw [char48_toNat (a % 10) (by omega), char48_toNat (b % 10) (by omega)]
          at this
        omega
      omega
  termination_by a b => a
  decreasing_by exact Nat.div_lt_self (by omega) (by omega)

theorem intChars_head_cases (i : Int) :
    ∃ c rest, intChars i = c :: rest ∧
      (c.toNat = 45 ∨ (48 ≤ c.toNat ∧ c.toNat ≤ 57)) := by
  rw [intChars]
  split
  · exact ⟨'-', _, rfl, Or.inl (by decide)⟩
  · obtain ⟨c, rest, hd, h1, h2⟩ := natDigits_head_digit i.toNat
    exact ⟨c, rest, by rw [hd], Or.inr ⟨h1, h2⟩⟩

theorem intChars_inj (i j : Int) (h : intChars i = intChars j) : i = j := by
  rw [intChars, intChars] at h
  split at h
  · rename_i hi
    split at h
    · rename_i hj
      have hdig : natDigits (-i).toNat = natDigits (-j).toNat := by
        simpa using h
      have := natDigits_inj _ _ hdig
      omega
    · rename_i hj
      exfalso
      obtain ⟨c, rest, hd, h1, h2⟩ := natDigits_head_digit j.toNat
      rw [hd] at h
      have := congrArg (fun l => List.head? l) h
      simp at this
      have := congrArg Char.toNat this
      simp at this
      omega
  · rename_i hi
    split at h
    · rename_i hj
      exfalso
      obtain ⟨c, rest, hd, h1, h2⟩ := natDigits_head_digit i.toNat
      rw [hd] at h
      have := congrArg (fun l => List.head? l) h
      simp at this
      have := congrArg Char.toNat this.symm
      simp at this
      omega
    · rename_i hj
      have := natDigits_inj _ _ h
      omega

-- ── escape / unescape roundtrip ──────────────────────────────

/-- The escaped body of a JSON string literal. -/
def escChars (l : List Char) : List Char :=
  l.foldr (fun c acc => escapeChar c ++ acc) []

theorem foldr_escape_init (l : List Char) (i : List Char) :
    l.foldr (fun c acc => escapeChar c ++ acc) i = escChars l ++ i := by
  induction l with
  | nil => rfl
  | cons c rest ih =>
    show escapeChar c ++ _ = (escapeChar c ++ escChars rest) ++ i
    rw [ih, List.append_assoc]

theorem quoteStr_decompose (s : String) :
    quoteStr s = quoteChar :: (escChars s.data ++ [quoteChar]) := by
  show quoteChar :: _ = _
  rw [foldr_escape_init]

/-- Value of a lower-case hex digit. -/
def hexVal (c : Char) : Nat :=
  if c.toNat ≤ 57 then c.toNat - 48 else c.toNat - 87

theorem hexVal_hexDigitChar (n : Nat) (h : n < 16) :
    hexVal (hexDigitChar n) = n := by
  interval_cases n <;> decide

/-- The character a named escape `\d` denotes. -/
def namedChar (d : Char) : Char :=
  if d = 'n' then Char.ofNat 10
  else if d = 't' then Char.ofNat 9
  else if d = 'r' then Char.ofNat 13
  else if d = 'b' then Char.ofNat 8
  else if d = 'f' then Char.ofNat 12
  else d

/-- Decode one escape sequence (or one plain character) off the front of an
escaped stream: the escape emitted for any character is recovered exactly,
which makes the escaping self-delimiting. -/
def unescapeOne : List Char → Option (Char × List Char)
  | [] => none
  | c :: rest =>
    if c = backslashChar then
      match rest with
      | [] => none
      | d :: rest2 =>
        if d = 'u' then
          match rest2 with
          | h3 :: h2 :: h1 :: h0 :: rest3 =>
            let v := ((hexVal h3 * 16 + hexVal h2) * 16 + hexVal h1) * 16 +
              hexVal h0
            if 55296 ≤ v ∧ v < 56320 then
              match rest3 with
              | b2 :: u2 :: k3 :: k2 :: k1 :: k0 :: rest4 =>
                if b2 = backslashChar ∧ u2 = 'u' then
                  some (Char.ofNat (65536 + (v - 55296) * 1024 +
                    (((hexVal k3 * 16 + hexVal k2) * 16 + hexVal k1) * 16 +
                      hexVal k0 - 56320)), rest4)
                else none
              | _ => none
            else some (Char.ofNat v, rest3)
          | _ => none
        else some (namedChar d, rest2)
    else some (c, rest)

/-- Fuelled decoder of a whole escaped stream. -/
def unescapeFuel : Nat → List Char → Option (List Char)
  | _, [] => some []
  | 0, _ :: _ => none
  | fuel + 1, c :: rest =>
    match unescapeOne (c :: rest) with
    | some (ch, rem) => (unescapeFuel fuel rem).map (fun t => ch :: t)
    | none => none

theorem hexQuad_eq (n : Nat) (h : n < 65536) :
    ((hexVal (hexDigitChar (n / 4096 % 16)) * 16 +
      hexVal (hexDigitChar (n / 256 % 16))) * 16 +
      hexVal (hexDigitChar (n / 16 % 16))) * 16 +
      hexVal (hexDigitChar (n % 16)) = n := by
  rw [hexVal_hexDigitChar _ (by omega), hexVal_hexDigitChar _ (by omega),
      hexVal_hexDigitChar _ (by omega), hexVal_hexDigitChar _ (by omega)]
  omega

theorem char_eq_of_toNat {c : Char} {n : Nat} (h : c.toNat = n) :
    c = Char.ofNat n := by
  subst h
  exact (Char.ofNat_toNat c).symm

theorem char_not_surrogate (c : Char) :
    ¬(55296 ≤ c.toNat ∧ c.toNat < 56320) := by
  have hv : c.toNat = c.val.toNat := rfl
  rcases c.valid with h | h
  · intro hc; omega
  · intro hc
    obtain ⟨h1, _⟩ := h
    omega

theorem char_toNat_lt (c : Char) : c.toNat < 1114112 := by
  have hv : c.toNat = c.val.toNat := rfl
  rcases c.valid with h | h
  · omega
  · omega

theorem unescapeOne_escapeChar (c : Char) (t : List Char) :
    unescapeOne (escapeChar c ++ t) = some (c, t) := by
  by_cases h1 : c = quoteChar
  · subst h1
    rw [show escapeChar quoteChar = [backslashChar, quoteChar] from by decide]
    rfl
  by_cases h2 : c = backslashChar
  · subst h2
    rw [show escapeChar backslashChar = [backslashChar, backslashChar] from
      by decide]
    rfl
  by_cases h3 : c.toNat = 10
  · rw [char_eq_of_toNat h3]
    rw [show escapeChar (Char.ofNat 10) = [backslashChar, 'n'] from by decide]
    rfl
  by_cases h4 : c.toNat = 9
  · rw [char_eq_of_toNat h4]
    rw [show escapeChar (Char.ofNat 9) = [backslashChar, 't'] from by decide]
    rfl
  by_cases h5 : c.toNat = 13
  · rw [char_eq_of_toNat h5]
    rw [show escapeChar (Char.ofNat 13) = [backslashChar, 'r'] from by decide]
    rfl
  by_cases h6 : c.toNat = 8
  · rw [char_eq_of_toNat h6]
    rw [show escapeChar (Char.ofNat 8) = [backslashChar, 'b'] from by decide]
    rfl
  by_cases h7 : c.toNat = 12
  · rw [char_eq_of_toNat h7]
    rw [show escapeChar (Char.ofNat 12) = [backslashChar, 'f'] from by decide]
    rfl
  by_cases h8 : c.toNat < 32
  · have hesc : escapeChar c = uEscape c.toNat := by
      rw [escapeChar]
      rw [if_neg h1, if_neg h2, if_neg h3, if_neg h4, if_neg h5, if_neg h6,
          if_neg h7, if_pos h8]
    rw [hesc]
    show unescapeOne (backslashChar :: 'u' :: _ :: _ :: _ :: _ :: t) = _
    simp only [unescapeOne, eq_self_iff_true, if_true]
    simp only [hexQuad_eq c.toNat (by omega)]
    rw [if_neg (by omega), Char.ofNat_toNat]
  by_cases h9 : c.toNat < 127
  · have hesc : escapeChar c = [c] := by
      rw [escapeChar]
      rw [if_neg h1, if_neg h2, if_neg h3, if_neg h4, if_neg h5, if_neg h6,
          if_neg h7, if_neg h8, if_pos h9]
    rw [hesc]
    show unescapeOne (c :: t) = _
    simp only [unescapeOne]
    rw [if_neg h2]
  by_cases h10 : c.toNat < 65536
  · have hesc : escapeChar c = uEscape c.toNat := by
      rw [escapeChar]
      rw [if_neg h1, if_neg h2, if_neg h3, if_neg h4, if_neg h5, if_neg h6,
          if_neg h7, if_neg h8, if_neg h9, if_pos h10]
    rw [hesc]
    show unescapeOne (backslashChar :: 'u' :: _ :: _ :: _ :: _ :: t) = _
    simp only [unescapeOne, eq_self_iff_true, if_true]
    simp only [hexQuad_eq c.toNat h10]
    rw [if_neg (char_not_surrogate c), Char.ofNat_toNat]
  · have hesc : escapeChar c =
        uEscape (55296 + (c.toNat - 65536) / 1024) ++
        uEscape (56320 + (c.toNat - 65536) % 1024) := by
      rw [escapeChar]
      rw [if_neg h1, if_neg h2, if_neg h3, if_neg h4, if_neg h5, if_neg h6,
          if_neg h7, if_neg h8, if_neg h9, if_neg h10]
    have hlt := char_toNat_lt c
    have hq : (c.toNat - 65536) / 1024 < 1024 := by omega
    have hr : (c.toNat - 65536) % 1024 < 1024 := by omega
    rw [hesc]
    show unescapeOne (backslashChar :: 'u' :: _ :: _ :: _ :: _ ::
      (backslashChar :: 'u' :: _ :: _ :: _ :: _ :: t)) = _
    simp only [unescapeOne, eq_self_iff_true, if_true, and_self]
    simp only [hexQuad_eq (55296 + (c.toNat - 65536) / 1024) (by omega)]
    rw [if_pos (by omega)]
    simp only [hexQuad_eq (56320 + (c.toNat - 65536) % 1024) (by omega)]
    have harith : 65536 + (55296 + (c.toNat - 65536) / 1024 - 55296) * 1024 +
        (56320 + (c.toNat - 65536) % 1024 - 56320) = c.toNat := by
      have := Nat.div_add_mod (c.toNat - 65536) 1024
      omega
    rw [harith, Char.ofNat_toNat]

theorem escapeChar_length_pos (c : Char) : 0 < (escapeChar c).length := by
  rw [escapeChar]
  repeat' split
  all_goals simp [uEscape]

theorem unescapeFuel_escChars :
    ∀ (l : List Char) (f : Nat), (escChars l).length ≤ f →
      unescapeFuel f (escChars l) = some l
  | [], f, _ => by cases f <;> rfl
  | c :: rest, f, hf => by
    have hesc : escChars (c :: rest) = escapeChar c ++ escChars rest := rfl
    have hpos : 0 < (escapeChar c).length := escapeChar_length_pos c
    rw [hesc] at hf ⊢
    have hlen : (escapeChar c ++ escChars rest).length =
        (escapeChar c).length + (escChars rest).length := by simp
    cases f with
    | zero => omega
    | succ f2 =>
      obtain ⟨e0, es, he⟩ : ∃ e0 es, escapeChar c = e0 :: es := by
        cases hec : escapeChar c with
        | nil => rw [hec] at hpos; simp at hpos
        | cons a b => exact ⟨a, b, rfl⟩
      rw [he, List.cons_append]
      show unescapeFuel (f2 + 1) (e0 :: (es ++ escChars rest)) = _
      simp only [unescapeFuel]
      rw [show e0 :: (es ++ escChars rest) = escapeChar c ++ escChars rest by
        rw [he, List.cons_append]]
      rw [unescapeOne_escapeChar c (escChars rest)]
      show (unescapeFuel f2 (escChars rest)).map (fun t => c :: t) =
        some (c :: rest)
      rw [unescapeFuel_escChars rest f2 (by omega)]
      rfl

/-- The escaped body determines the original characters. -/
theorem escChars_inj {l1 l2 : List Char} (h : escChars l1 = escChars l2) :
    l1 = l2 := by
  have h1 := unescapeFuel_escChars l1 (escChars l1).length (le_refl _)
  have h2 := unescapeFuel_escChars l2 (escChars l2).length (le_refl _)
  rw [h] at h1
  rw [h1] at h2
  exact Option.some.inj h2

/-- JSON string literals are injective in the string. -/
theorem quoteStr_inj {s1 s2 : String} (h : quoteStr s1 = quoteStr s2) :
    s1 = s2 := by
  rw [quoteStr_decompose, quoteStr_decompose] at h
  have h2 := List.cons.inj h
  have h3 := List.append_cancel_right h2.2
  exact stringData_inj (escChars_inj h3)

theorem num_scalar_head_clash (i : Int) (c : Char) (t : List Char)
    (hc : c.toNat = 110 ∨ c.toNat = 116 ∨ c.toNat = 102 ∨ c.toNat = 34)
    (h : canonicalChars (Json.num i) = c :: t) : False := by
  obtain ⟨c2, t2, hd, hcs⟩ := intChars_head_cases i
  rw [show canonicalChars (Json.num i) = intChars i from rfl, hd] at h
  have h1 := (List.cons.inj h).1
  have h2 := congrArg Char.toNat h1
  rcases hcs with h3 | h3 <;> rcases hc with h4 | h4 | h4 | h4 <;> omega

/-- Distinct scalar leaves serialize to distinct character lists. -/
theorem scalar_canonicalChars_ne (v1 v2 : Json) (s1 : isScalar v1 = true)
    (s2 : isScalar v2 = true) (hne : v1 ≠ v2) :
    canonicalChars v1 ≠ canonicalChars v2 := by
  intro h
  cases v1 with
  | null =>
    cases v2 with
    | null => exact hne rfl
    | bool b => cases b <;> exact absurd h (by decide)
    | num i =>
      exact num_scalar_head_clash i 'n' _ (Or.inl (by decide)) h.symm
    | str s =>
      rw [show canonicalChars (Json.str s) = quoteStr s from rfl,
        quoteStr_decompose] at h
      exact absurd (List.cons.inj h.symm).1 (by decide)
    | arr l => simp [isScalar] at s2
    | obj l => simp [isScalar] at s2
  | bool b =>
    cases v2 with
    | null => cases b <;> exact absurd h (by decide)
    | bool b2 =>
      cases b <;> cases b2 <;>
        first
        | exact hne rfl
        | exact absurd h (by decide)
    | num i =>
      cases b
      · exact num_scalar_head_clash i 'f' _ (Or.inr (Or.inr (Or.inl (by decide))))
          h.symm
      · exact num_scalar_head_clash i 't' _ (Or.inr (Or.inl (by decide))) h.symm
    | str s =>
      rw [show canonicalChars (Json.str s) = quoteStr s from rfl,
        quoteStr_decompose] at h
      cases b <;> exact absurd (List.cons.inj h.symm).1 (by decide)
    | arr l => simp [isScalar] at s2
    | obj l => simp [isScalar] at s2
  | num i =>
    cases v2 with
    | null => exact num_scalar_head_clash i 'n' _ (Or.inl (by decide)) h
    | bool b =>
      cases b
      · exact num_scalar_head_clash i 'f' _ (Or.inr (Or.inr (Or.inl (by decide)))) h
      · exact num_scalar_head_clash i 't' _ (Or.inr (Or.inl (by decide))) h
    | num j => exact hne (congrArg Json.num (intChars_inj i j h))
    | str s =>
      rw [show canonicalChars (Json.str s) = quoteStr s from rfl,
        quoteStr_decompose] at h
      exact num_scalar_head_clash i quoteChar _
        (Or.inr (Or.inr (Or.inr (by decide)))) h
    | arr l => simp [isScalar] at s2
    | obj l => simp [isScalar] at s2
  | str s =>
    cases v2 with
    | null =>
      rw [show canonicalChars (Json.str s) = quoteStr s from rfl,
        quoteStr_decompose] at h
      exact absurd (List.cons.inj h).1 (by decide)
    | bool b =>
      rw [show canonicalChars (Json.str s) = quoteStr s from rfl,
        quoteStr_decompose] at h
      cases b <;> exact absurd (List.cons.inj h).1 (by decide)
    | num j =>
      rw [show canonicalChars (Json.str s) = quoteStr s from rfl,
        quoteStr_decompose] at h
      exact num_scalar_head_clash j quoteChar _
        (Or.inr (Or.inr (Or.inr (by decide)))) h.symm
    | str s2 => exact hne (congrArg Json.str (quoteStr_inj h))
    | arr l => simp [isScalar] at s2
    | obj l => simp [isScalar] at s2
  | arr l => simp [isScalar] at s1
  | obj l => simp [isScalar] at s1

/-- Changing the scalar value at any existing structural path changes the
canonical serialization. -/
theorem canonicalChars_setPath_ne :
    ∀ (p : List PathSeg) (d v1 v2 d2 : Json),
      getPath d p = some v1 → setPath d p v2 = some d2 →
      isScalar v1 = true → isScalar v2 = true → v1 ≠ v2 →
      canonicalChars d2 ≠ canonicalChars d
  | [], d, v1, v2, d2, hg, hs, s1, s2, hne => by
    have hd : d = v1 := Option.some.inj (by simpa [getPath] using hg)
    have hd2 : v2 = d2 := Option.some.inj (by simpa [setPath] using hs)
    rw [← hd2, hd]
    exact scalar_canonicalChars_ne v2 v1 s2 s1 (fun he => hne he.symm)
  | PathSeg.key k :: rest, d, v1, v2, d2, hg, hs, s1, s2, hne => by
    cases d with
    | obj l =>
      cases hlk : lookupStr l k with
      | none => simp [getPath, hlk] at hg
      | some c =>
        simp only [getPath, hlk] at hg
        simp only [setPath, hlk, Option.map_eq_some'] at hs
        obtain ⟨c2, hc2, rfl⟩ := hs
        have IH := canonicalChars_setPath_ne rest c v1 v2 c2 hg hc2 s1 s2 hne
        intro hEq
        apply IH
        have hlkm : lookupStr (l.map (fun p => (p.1, canonicalChars p.2))) k =
            some (canonicalChars c) := by
          rw [lookupStr_map_val, hlk]
          rfl
        have hOD : OneDiff (canonicalEntries l)
            (canonicalEntries (pyDictInsert l k c2)) k
            (canonicalChars c) (canonicalChars c2) := by
          rw [canonicalEntries_eq_map, canonicalEntries_eq_map,
            pyDictInsert_map_val]
          exact oneDiff_pyDictInsert (canonicalChars c2) hlkm
        obtain ⟨A, B, hA, hB⟩ := hOD.sortEntries_congr.split
        rw [show canonicalChars (Json.obj (pyDictInsert l k c2)) =
            lbraceChar :: (joinComma
              ((sortEntries (canonicalEntries (pyDictInsert l k c2))).map
                objEntryChars) ++ [rbraceChar]) from rfl,
          show canonicalChars (Json.obj l) =
            lbraceChar :: (joinComma
              ((sortEntries (canonicalEntries l)).map objEntryChars) ++
                [rbraceChar]) from rfl, hA, hB] at hEq
        simp only [List.map_append, List.map_cons] at hEq
        obtain ⟨P, S, hPS⟩ :=
          joinComma_split (A.map objEntryChars) (B.map objEntryChars)
        rw [hPS, hPS] at hEq
        have h2 := (List.cons.inj hEq).2
        have h3 := List.append_cancel_right h2
        have h4 := List.append_cancel_right h3
        have h5 := List.append_cancel_left h4
        have h6 : (quoteStr k ++ ':' :: canonicalChars c2 : List Char) =
            quoteStr k ++ ':' :: canonicalChars c := h5
        have h7 := List.append_cancel_left h6
        exact (List.cons.inj h7).2
    | null => simp [getPath] at hg
    | bool b => simp [getPath] at hg
    | num i => simp [getPath] at hg
    | str s => simp [getPath] at hg
    | arr xs => simp [getPath] at hg
  | PathSeg.idx i :: rest, d, v1, v2, d2, hg, hs, s1, s2, hne => by
    cases d with
    | arr xs =>
      cases hgi : xs.get? i with
      | none =>
        simp only [getPath, hgi] at hg
        exact Option.noConfusion hg
      | some c =>
        simp only [getPath, hgi] at hg
        simp only [setPath, hgi, Option.map_eq_some'] at hs
        obtain ⟨c2, hc2, rfl⟩ := hs
        have IH := canonicalChars_setPath_ne rest c v1 v2 c2 hg hc2 s1 s2 hne
        intro hEq
        apply IH
        obtain ⟨A, B, hAB, hlen, hset⟩ := get?_set_split xs i c hgi
        rw [show canonicalChars (Json.arr (xs.set i c2)) =
            '[' :: (joinComma (canonicalList (xs.set i c2)) ++ [']']) from rfl,
          show canonicalChars (Json.arr xs) =
            '[' :: (joinComma (canonicalList xs) ++ [']']) from rfl,
          hset c2, hAB, canonicalList_eq_map, canonicalList_eq_map] at hEq
        simp only [List.map_append, List.map_cons] at hEq
        obtain ⟨P, S, hPS⟩ :=
          joinComma_split (A.map canonicalChars) (B.map canonicalChars)
        rw [hPS, hPS] at hEq
        have h2 := (List.cons.inj hEq).2
        have h3 := List.append_cancel_right h2
        have h4 := List.append_cancel_right h3
        exact List.append_cancel_left h4
    | null => simp [getPath] at hg
    | bool b => simp [getPath] at hg
    | num j => simp [getPath] at hg
    | str s => simp [getPath] at hg
    | obj l => simp [getPath] at hg

-- ── C7: the digest is a 256-bit value, hence not injective ───

theorem sha256Round_length (st : List Nat) (kw : Nat × Nat) :
    (sha256Round st kw).length = 8 := rfl

theorem foldl_sha256Round_length :
    ∀ (l : List (Nat × Nat)) (st : List Nat), st.length = 8 →
      (l.foldl sha256Round st).length = 8
  | [], _, h => h
  | _ :: rest, st, _ =>
    foldl_sha256Round_length rest (sha256Round st _) rfl

theorem compressBlock_length (h b : List Nat) (hh : h.length = 8) :
    (compressBlock h b).length = 8 := by
  simp only [compressBlock, List.length_zipWith, hh,
    foldl_sha256Round_length _ _ hh]
  exact Nat.min_self 8

theorem foldl_compressBlock_length :
    ∀ (bs : List (List Nat)) (st : List Nat), st.length = 8 →
      (bs.foldl compressBlock st).length = 8
  | [], _, h => h
  | b :: rest, st, h =>
    foldl_compressBlock_length rest (compressBlock st b)
      (compressBlock_length st b h)

theorem digestFold_lt :
    ∀ (l : List Nat) (acc k : Nat), acc < 2 ^ (32 * k) →
      l.foldl (fun a x => a * 4294967296 + x % 4294967296) acc <
        2 ^ (32 * (k + l.length))
  | [], acc, k, h => by simpa using h
  | x :: rest, acc, k, h => by
    have h2 : acc * 4294967296 + x % 4294967296 < (acc + 1) * 4294967296 := by
      have h1 : x % 4294967296 < 4294967296 :=
        Nat.mod_lt x (by norm_num)
      rw [Nat.add_mul, Nat.one_mul]
      omega
    have h4 : acc * 4294967296 + x % 4294967296 < 2 ^ (32 * (k + 1)) :=
      calc acc * 4294967296 + x % 4294967296
          < (acc + 1) * 4294967296 := h2
        _ ≤ 2 ^ (32 * k) * 4294967296 := Nat.mul_le_mul_right _ h
        _ = 2 ^ (32 * (k + 1)) := by rw [Nat.mul_add, Nat.pow_add]
    have hrec := digestFold_lt rest (acc * 4294967296 + x % 4294967296)
      (k + 1) h4
    have hexp : 32 * (k + (rest.length + 1)) = 32 * ((k + 1) + rest.length) := by
      ring
    simp only [List.foldl_cons, List.length_cons]
    rw [hexp]
    exact hrec

theorem sha256Digest_lt (msg : List Nat) : sha256Digest msg < 2 ^ 256 := by
  have h8 : ((toBlocks (toWords (sha256Pad msg))).foldl compressBlock
      sha256H0).length = 8 :=
    foldl_compressBlock_length _ sha256H0 rfl
  have hb := digestFold_lt
    ((toBlocks (toWords (sha256Pad msg))).foldl compressBlock sha256H0)
    0 0 (by norm_num)
  rw [h8] at hb
  simpa [sha256Digest] using hb

/-- A one-field object whose single leaf is a string of `n` letters. -/
def c7Payload (n : Nat) : Json :=
  Json.obj [("a", Json.str (String.mk (List.replicate n 'x')))]

/-- C7: the claim's second conjunct — "changing any leaf field value
produces a different fingerprint" — is false: the fingerprint is a 256-bit
digest, so among the infinitely many payloads `{"a": "x"*n}` two distinct
ones (differing exactly in the leaf value of field `"a"`) must share a
fingerprint. -/
theorem c7_fingerprint_stability_counterexample :
    ∃ d1 d2 : Json,
      (∃ s1 s2 : String,
        d1 = Json.obj [("a", Json.str s1)] ∧
        d2 = Json.obj [("a", Json.str s2)] ∧ s1 ≠ s2) ∧
      fingerprint d1 = fingerprint d2 := by
  obtain ⟨n, m, hne, heq⟩ :=
    Finite.exists_ne_map_eq_of_infinite
      (fun n : Nat =>
        (⟨sha256Digest (strBytes (canonicalChars (c7Payload n))),
          sha256Digest_lt _⟩ : Fin (2 ^ 256)))
  refine ⟨c7Payload n, c7Payload m,
    ⟨String.mk (List.replicate n 'x'), String.mk (List.replicate m 'x'),
      rfl, rfl, ?_⟩, ?_⟩
  · intro hstr
    apply hne
    have hdata := congrArg String.data hstr
    have hlen := congrArg List.length hdata
    simpa using hlen
  · have hval := congrArg Fin.val heq
    exact congrArg (fun x => String.mk (hexFixed 64 x)) hval

/-- C7 (amended): (a) two well-formed payloads that are equal as maps —
equal canonical forms, hence in particular payloads differing only in
object key order — have identical fingerprints; (b) changing a scalar
leaf value at any existing structural path changes the canonical
serialization that is hashed (the digest itself is 256 bits wide and
cannot be injective). -/
theorem c7_fingerprint_stability_amended :
    (∀ d1 d2 : Json, wfJson d1 = true → wfJson d2 = true →
      canonicalForm d1 = canonicalForm d2 →
      fingerprint d1 = fingerprint d2) ∧
    (∀ (d : Json) (p : List PathSeg) (v1 v2 d2 : Json),
      getPath d p = some v1 → setPath d p v2 = some d2 →
      isScalar v1 = true → isScalar v2 = true → v1 ≠ v2 →
      canonicalStr d2 ≠ canonicalStr d) := by
  constructor
  · exact fingerprint_eq_of_canonicalForm_eq
  · intro d p v1 v2 d2 hg hs s1 s2 hne h
    exact canonicalChars_setPath_ne p d v1 v2 d2 hg hs s1 s2 hne
      (congrArg String.data h)

-- ─────────────────────────────────────────────────────────────
-- C9: a heap model of `_apply_adapter_dsl`'s mutation discipline.
-- Python dicts/lists are mutable objects; the value embedding above cannot
-- express aliasing, so the frame claim is stated over an explicit heap:
-- addresses are `Nat`, nodes hold scalars or lists of child addresses, and
-- the dotted-path helpers are re-embedded as in-place writes on the heap
-- (`cur[p] = ...` writes the node at the current address; walking `cur =
-- cur[p]` moves the address, with no functional write-back). The DSL rule
-- itself lives outside the modeled heap (its values are materialized as
-- fresh nodes when stored; CPython aliases the shared rule object instead,
-- which can only affect the rule, never the input document).
-- ─────────────────────────────────────────────────────────────

/-- A heap node: a Python object. Containers hold addresses. -/
inductive HNode where
  | null : HNode
  | bool : Bool → HNode
  | num : Int → HNode
  | str : String → HNode
  | arr : List Nat → HNode
  | obj : List (String × Nat) → HNode

/-- The child addresses a node points to. -/
def HNode.ptrs : HNode → List Nat
  | .arr es => es
  | .obj ents => ents.map Prod.snd
  | _ => []

/-- First-match association lookup on the memory list. -/
def assocGet : List (Nat × HNode) → Nat → Option HNode
  | [], _ => none
  | (k, v) :: rest, a => if k = a then some v else assocGet rest a

/-- Replace the first binding of `a` (append if absent). -/
def updateAssoc : List (Nat × HNode) → Nat → HNode → List (Nat × HNode)
  | [], a, n => [(a, n)]
  | (k, v) :: rest, a, n =>
    if k = a then (k, n) :: rest else (k, v) :: updateAssoc rest a n

/-- A heap: memory plus the next fresh address. -/
structure Heap where
  mem : List (Nat × HNode)
  next : Nat

def Heap.get (h : Heap) (a : Nat) : Option HNode :=
  assocGet h.mem a

/-- In-place mutation of the object at address `a`. -/
def Heap.write (h : Heap) (a : Nat) (n : HNode) : Heap :=
  ⟨updateAssoc h.mem a n, h.next⟩

/-- Allocate a fresh object. -/
def Heap.alloc (h : Heap) (n : HNode) : Heap × Nat :=
  (⟨(h.next, n) :: h.mem, h.next + 1⟩, h.next)

/-- Allocate `k` fresh copies of a node (`cur.append(None)` /
`cur.append({})` pads, one fresh object per appended slot). -/
def allocCopies (node : HNode) : Nat → Heap → Heap × List Nat
  | 0, h => (h, [])
  | k + 1, h =>
    let r := allocCopies node k (h.alloc node).1
    (r.1, h.next :: r.2)

mutual

/-- Build a fresh heap representation of a JSON value (`json.loads` builds
every container and scalar as a new object). -/
def injectJson : Heap → Json → Heap × Nat
  | h, .null => h.alloc .null
  | h, .bool b => h.alloc (.bool b)
  | h, .num i => h.alloc (.num i)
  | h, .str s => h.alloc (.str s)
  | h, .arr xs =>
    let r := injectJsonList h xs
    r.1.alloc (.arr r.2)
  | h, .obj l =>
    let r := injectJsonEntries h l
    r.1.alloc (.obj r.2)

def injectJsonList : Heap → List Json → Heap × List Nat
  | h, [] => (h, [])
  | h, x :: xs =>
    let r := injectJson h x
    let r2 := injectJsonList r.1 xs
    (r2.1, r.2 :: r2.2)

def injectJsonEntries : Heap → List (String × Json) → Heap × List (String × Nat)
  | h, [] => (h, [])
  | h, (k, v) :: rest =>
    let r := injectJson h v
    let r2 := injectJsonEntries r.1 rest
    (r2.1, (k, r.2) :: r2.2)

end

/-- Read the JSON value rooted at an address (`json.dumps`); the fuel
bounds the depth, which for an acyclic heap is at most the number of
allocated addresses. -/
def readback (h : Heap) : Nat → Nat → Json
  | 0, _ => Json.null
  | fuel + 1, a =>
    match h.get a with
    | some HNode.null => Json.null
    | some (HNode.bool b) => Json.bool b
    | some (HNode.num i) => Json.num i
    | some (HNode.str s) => Json.str s
    | some (HNode.arr es) => Json.arr (es.map (fun e => readback h fuel e))
    | some (HNode.obj ents) =>
      Json.obj (ents.map (fun kv => (kv.1, readback h fuel kv.2)))
    | none => Json.null

/-- `json.loads(json.dumps(data))`: the "cheap deep copy" at the top of
`_apply_adapter_dsl` — read the value out and rebuild it entirely from
fresh objects. -/
def deepCopyH (h : Heap) (a : Nat) : Heap × Nat :=
  injectJson h (readback h h.next a)

/-- `_dot_get`'s walk at heap level: returns the address of the value (a
reference), `none` for the `default=None` misses. -/
def dotGetH (h : Heap) : Nat → List String → Option Nat
  | cur, [] => some cur
  | cur, p :: rest =>
    match h.get cur with
    | some (HNode.arr es) =>
      match pyInt? p with
      | none => none
      | some i =>
        if 0 ≤ i ∧ i < (es.length : Int) then
          match es.get? i.toNat with
          | some nxt => dotGetH h nxt rest
          | none => none
        else none
    | some (HNode.obj ents) =>
      match lookupStr ents p with
      | some nxt => dotGetH h nxt rest
      | none => none
    | _ => none

/-- `_dot_get(obj, path, default=None)` including the empty-path case. -/
def dotGetFullH (h : Heap) (root : Nat) (path : String) : Option Nat :=
  if path = "" then some root else dotGetH h root (pySplitDot path)

/-- `_dot_set` at heap level: every mutation is a `Heap.write` at the
address being traversed; missing or non-container children are replaced by
freshly allocated `{}` nodes; list growth appends fresh pads. Raised
`ValueError`/`IndexError` surface as `some errormessage` alongside the heap
as mutated so far. -/
def dotSetH : List String → Heap → Nat → Nat → Heap × Option String
  | [], h, _, _ => (h, none)
  | [p], h, cur, vAddr =>
    match h.get cur with
    | some (HNode.obj ents) =>
      (h.write cur (.obj (pyDictInsert ents p vAddr)), none)
    | some (HNode.arr es) =>
      match pyInt? p with
      | none => (h, some "invalid literal for int()")
      | some i =>
        if 0 ≤ i then
          let r := allocCopies .null (i.toNat + 1 - es.length) h
          (r.1.write cur (.arr ((es ++ r.2).set i.toNat vAddr)), none)
        else if (-i) ≤ (es.length : Int) then
          (h.write cur (.arr (es.set (es.length - (-i).toNat) vAddr)), none)
        else (h, some "list assignment index out of range")
    | _ => (h, some "Cannot set into non-container")
  | p :: q :: rest, h, cur, vAddr =>
    match h.get cur with
    | some (HNode.obj ents) =>
      match lookupStr ents p with
      | some child =>
        match h.get child with
        | some (HNode.obj _) => dotSetH (q :: rest) h child vAddr
        | some (HNode.arr _) => dotSetH (q :: rest) h child vAddr
        | _ =>
          let r := h.alloc (.obj [])
          dotSetH (q :: rest)
            (r.1.write cur (.obj (pyDictInsert ents p r.2))) r.2 vAddr
      | none =>
        let r := h.alloc (.obj [])
        dotSetH (q :: rest)
          (r.1.write cur (.obj (pyDictInsert ents p r.2))) r.2 vAddr
    | some (HNode.arr es) =>
      match pyInt? p with
      | none => (h, some "invalid literal for int()")
      | some i =>
        if 0 ≤ i then
          if hlt : i.toNat < es.length then
            dotSetH (q :: rest) h (es.get ⟨i.toNat, hlt⟩) vAddr
          else
            let r := allocCopies (.obj []) (i.toNat + 1 - es.length) h
            let h2 := r.1.write cur (.arr (es ++ r.2))
            match (es ++ r.2).get? i.toNat with
            | some nxt => dotSetH (q :: rest) h2 nxt vAddr
            | none => (h2, some "list index out of range")
        else if (-i) ≤ (es.length : Int) then
          match es.get? (es.length - (-i).toNat) with
          | some nxt => dotSetH (q :: rest) h nxt vAddr
          | none => (h, some "list index out of range")
        else (h, some "list index out of range")
    | _ => (h, some "Cannot traverse into non-container")

/-- `_dot_delete` at heap level: walk (negative indices allowed while
traversing), then `del cur[p]` / `cur.pop(idx)` as a single write at the
final container's address. -/
def dotDeleteH : List String → Heap → Nat → Heap × Option String
  | [], h, _ => (h, none)
  | [p], h, cur =>
    match h.get cur with
    | some (HNode.obj ents) =>
      (h.write cur (.obj (eraseKeyFirst ents p)), none)
    | some (HNode.arr es) =>
      match pyInt? p with
      | none => (h, some "invalid literal for int()")
      | some i =>
        if 0 ≤ i ∧ i < (es.length : Int) then
          (h.write cur (.arr (es.eraseIdx i.toNat)), none)
        else (h, none)
    | _ => (h, none)
  | p :: q :: rest, h, cur =>
    match h.get cur with
    | some (HNode.obj ents) =>
      match lookupStr ents p with
      | some child => dotDeleteH (q :: rest) h child
      | none => (h, none)
    | some (HNode.arr es) =>
      match pyInt? p with
      | none => (h, some "invalid literal for int()")
      | some i =>
        let pos : Int := if i < 0 then (es.length : Int) + i else i
        if 0 ≤ pos ∧ pos < (es.length : Int) then
          match es.get? pos.toNat with
          | some nxt => dotDeleteH (q :: rest) h nxt
          | none => (h, some "list index out of range")
        else (h, some "list index out of range")
    | _ => (h, none)

/-- One `move` entry: read the source (a reference), skip when it is
`None` (absent or null), else set at the destination and delete the
source. -/
def moveStepH (h : Heap) (root : Nat) (sd : String × String) :
    Heap × Option String :=
  match dotGetFullH h root sd.1 with
  | none => (h, none)
  | some vAddr =>
    match h.get vAddr with
    | some HNode.null => (h, none)
    | _ =>
      match dotSetH (pySplitDot sd.2) h root vAddr with
      | (h2, some e) => (h2, some e)
      | (h2, none) => dotDeleteH (pySplitDot sd.1) h2 root

/-- One `set` entry: the rule value is materialized in the heap, then
stored at the path. -/
def setStepH (h : Heap) (root : Nat) (pv : String × Json) :
    Heap × Option String :=
  dotSetH (pySplitDot pv.1) (injectJson h pv.2).1 root (injectJson h pv.2).2

/-- `cur in (None, "", [], {})` on the node at an address. -/
def isEmptyLikeH : HNode → Bool
  | .null => true
  | .str s => s = ""
  | .arr es => es.isEmpty
  | .obj ents => ents.isEmpty
  | _ => false

def defaultIsEmptyH (h : Heap) (root : Nat) (path : String) : Bool :=
  match dotGetFullH h root path with
  | none => true
  | some a =>
    match h.get a with
    | some nd => isEmptyLikeH nd
    | none => false

/-- One `defaults` entry. -/
def defaultStepH (h : Heap) (root : Nat) (pv : String × Json) :
    Heap × Option String :=
  if defaultIsEmptyH h root pv.1 then
    dotSetH (pySplitDot pv.1) (injectJson h pv.2).1 root (injectJson h pv.2).2
  else (h, none)

/-- One `delete` entry. -/
def deleteStepH (h : Heap) (root : Nat) (p : String) : Heap × Option String :=
  dotDeleteH (pySplitDot p) h root

/-- Run a phase's entries in order, stopping at the first raised
exception (which propagates out of `_apply_adapter_dsl`). -/
def stepsFoldH {α : Type} (f : Heap → α → Heap × Option String) :
    List α → Heap → Heap × Option String
  | [], h => (h, none)
  | x :: rest, h =>
    match f h x with
    | (h2, none) => stepsFoldH f rest h2
    | (h2, some e) => (h2, some e)

/-- The four phases applied to the deep copy's root. -/
def applyPhasesH (h1 : Heap) (outRoot : Nat) (dsl : AdapterDsl) :
    Heap × Except String Nat :=
  match stepsFoldH (fun hh sd => moveStepH hh outRoot sd) dsl.move h1 with
  | (h2, some e) => (h2, .error e)
  | (h2, none) =>
    match stepsFoldH (fun hh pv => setStepH hh outRoot pv) dsl.set h2 with
    | (h3, some e) => (h3, .error e)
    | (h3, none) =>
      match stepsFoldH (fun hh pv => defaultStepH hh outRoot pv) dsl.defaults h3 with
      | (h4, some e) => (h4, .error e)
      | (h4, none) =>
        match stepsFoldH (fun hh p => deleteStepH hh outRoot p) dsl.delete h4 with
        | (h5, some e) => (h5, .error e)
        | (h5, none) => (h5, .ok outRoot)

/-- `_apply_adapter_dsl(data, dsl)` over the heap: deep-copy the input,
then mutate only the copy. -/
def applyAdapterDslH (h : Heap) (dataRoot : Nat) (dsl : AdapterDsl) :
    Heap × Except String Nat :=
  applyPhasesH (deepCopyH h dataRoot).1 (deepCopyH h dataRoot).2 dsl

theorem c7_fingerprint_stability_amended_witness :
    fingerprint (Json.obj [("a", Json.num 1), ("b", Json.str "x")]) =
      fingerprint (Json.obj [("b", Json.str "x"), ("a", Json.num 1)]) ∧
    canonicalStr (Json.obj [("a", Json.num 2)]) ≠
      canonicalStr (Json.obj [("a", Json.num 1)]) :=
  ⟨c7_fingerprint_stability_amended.1
      (Json.obj [("a", Json.num 1), ("b", Json.str "x")])
      (Json.obj [("b", Json.str "x"), ("a", Json.num 1)]) rfl rfl rfl,
   c7_fingerprint_stability_amended.2
      (Json.obj [("a", Json.num 1)]) [PathSeg.key "a"]
      (Json.num 1) (Json.num 2) (Json.obj [("a", Json.num 2)])
      rfl rfl rfl rfl (by simp)⟩

theorem assocGet_updateAssoc_self :
    ∀ (l : List (Nat × HNode)) (a : Nat) (n : HNode),
      assocGet (updateAssoc l a n) a = some n
  | [], a, n => by simp [updateAssoc, assocGet]
  | (k, v) :: rest, a, n => by
    by_cases hk : k = a
    · simp [updateAssoc, hk, assocGet]
    · simp only [updateAssoc, if_neg hk, assocGet, if_neg hk]
      exact assocGet_updateAssoc_self rest a n

theorem assocGet_updateAssoc_ne :
    ∀ (l : List (Nat × HNode)) (a b : Nat) (n : HNode), a ≠ b →
      assocGet (updateAssoc l b n) a = assocGet l a
  | [], a, b, n, hne => by
    simp [updateAssoc, assocGet, Ne.symm hne]
  | (k, v) :: rest, a, b, n, hne => by
    by_cases hk : k = b
    · subst hk
      simp only [updateAssoc, if_pos rfl, assocGet, if_neg (Ne.symm hne)]
    · simp only [updateAssoc, if_neg hk, assocGet]
      by_cases hka : k = a
      · simp [hka]
      · simp only [if_neg hka]
        exact assocGet_updateAssoc_ne rest a b n hne

theorem Heap.get_write_self (h : Heap) (a : Nat) (n : HNode) :
    (h.write a n).get a = some n :=
  assocGet_updateAssoc_self h.mem a n

theorem Heap.get_write_ne (h : Heap) {a b : Nat} (n : HNode) (hne : a ≠ b) :
    (h.write b n).get a = h.get a :=
  assocGet_updateAssoc_ne h.mem a b n hne

theorem Heap.write_next (h : Heap) (a : Nat) (n : HNode) :
    (h.write a n).next = h.next := rfl

theorem Heap.get_alloc_ne (h : Heap) (n : HNode) {a : Nat} (hne : a ≠ h.next) :
    (h.alloc n).1.get a = h.get a := by
  simp only [Heap.alloc, Heap.get, assocGet]
  rw [if_neg (fun hh => hne hh.symm)]

theorem Heap.get_alloc_self (h : Heap) (n : HNode) :
    (h.alloc n).1.get h.next = some n := by
  simp [Heap.alloc, Heap.get, assocGet]

theorem lookupStr_mem_snd {β : Type} :
    ∀ (l : List (String × β)) (k : String) (v : β),
      lookupStr l k = some v → v ∈ l.map Prod.snd
  | [], k, v, hg => by simp [lookupStr] at hg
  | (k', v') :: rest, k, v, hg => by
    simp only [lookupStr] at hg
    by_cases hk : k' = k
    · rw [if_pos hk] at hg
      injection hg with hv
      simp [hv]
    · rw [if_neg hk] at hg
      simp only [List.map_cons, List.mem_cons]
      exact Or.inr (lookupStr_mem_snd rest k v hg)

theorem mem_snd_pyDictInsert {β : Type} :
    ∀ (m : List (String × β)) (k : String) (v x : β),
      x ∈ (pyDictInsert m k v).map Prod.snd → x = v ∨ x ∈ m.map Prod.snd
  | [], k, v, x, hx => by
    simp [pyDictInsert] at hx
    exact Or.inl hx
  | (k', v') :: rest, k, v, x, hx => by
    simp only [pyDictInsert] at hx
    by_cases hk : k' = k
    · rw [if_pos hk] at hx
      simp only [List.map_cons, List.mem_cons] at hx
      rcases hx with hx | hx
      · exact Or.inl hx
      · exact Or.inr (by simp only [List.map_cons, List.mem_cons]; exact Or.inr hx)
    · rw [if_neg hk] at hx
      simp only [List.map_cons, List.mem_cons] at hx
      rcases hx with hx | hx
      · exact Or.inr (by simp only [List.map_cons, List.mem_cons]; exact Or.inl hx)
      · rcases mem_snd_pyDictInsert rest k v x hx with h | h
        · exact Or.inl h
        · exact Or.inr (by simp only [List.map_cons, List.mem_cons]; exact Or.inr h)

theorem mem_snd_eraseKeyFirst {β : Type} :
    ∀ (m : List (String × β)) (p : String) (x : β),
      x ∈ (eraseKeyFirst m p).map Prod.snd → x ∈ m.map Prod.snd
  | [], p, x, hx => by simp [eraseKeyFirst] at hx
  | (k, v) :: rest, p, x, hx => by
    simp only [eraseKeyFirst] at hx
    by_cases hk : k = p
    · rw [if_pos hk] at hx
      simp only [List.map_cons, List.mem_cons]
      exact Or.inr hx
    · rw [if_neg hk] at hx
      simp only [List.map_cons, List.mem_cons] at hx ⊢
      rcases hx with hx | hx
      · exact Or.inl hx
      · exact Or.inr (mem_snd_eraseKeyFirst rest p x hx)

/-- All pointers out of nodes at or above `n0` stay at or above `n0`. -/
def highClosed (n0 : Nat) (h : Heap) : Prop :=
  ∀ a nd, n0 ≤ a → h.get a = some nd → ∀ x ∈ nd.ptrs, n0 ≤ x

/-- The invariant carried through the adapter call: the fresh-address
counter is at or past `n0`, every allocated address is below the counter,
and the region at or above `n0` is closed under pointers. -/
def HeapInv (n0 : Nat) (h : Heap) : Prop :=
  n0 ≤ h.next ∧ (∀ a nd, h.get a = some nd → a < h.next) ∧ highClosed n0 h

/-- The heap is unchanged below `n0`. -/
def FrameBelow (n0 : Nat) (h h' : Heap) : Prop :=
  ∀ a, a < n0 → h'.get a = h.get a

theorem FrameBelow.rfl {n0 : Nat} (h : Heap) : FrameBelow n0 h h :=
  fun _ _ => Eq.refl _

theorem FrameBelow.trans {n0 : Nat} {h1 h2 h3 : Heap}
    (a : FrameBelow n0 h1 h2) (b : FrameBelow n0 h2 h3) :
    FrameBelow n0 h1 h3 :=
  fun x hx => (b x hx).trans (a x hx)

theorem heapInv_write {n0 : Nat} {h : Heap} {b : Nat} {nd0 : HNode}
    (node : HNode) (hi : HeapInv n0 h) (hb : h.get b = some nd0)
    (hn : ∀ x ∈ node.ptrs, n0 ≤ x) :
    HeapInv n0 (h.write b node) := by
  obtain ⟨h1, h2, h3⟩ := hi
  refine ⟨h1, ?_, ?_⟩
  · intro a nd hg
    rw [Heap.write_next]
    by_cases hab : a = b
    · subst hab
      exact h2 a nd0 hb
    · rw [Heap.get_write_ne _ _ hab] at hg
      exact h2 a nd hg
  · intro a nd ha hg x hx
    by_cases hab : a = b
    · subst hab
      rw [Heap.get_write_self] at hg
      injection hg with he
      exact hn x (he ▸ hx)
    · rw [Heap.get_write_ne _ _ hab] at hg
      exact h3 a nd ha hg x hx

theorem frameBelow_write {n0 : Nat} (h : Heap) {b : Nat} (node : HNode)
    (hb : n0 ≤ b) : FrameBelow n0 h (h.write b node) :=
  fun a ha => Heap.get_write_ne _ _ (by omega)

theorem heapInv_alloc {n0 : Nat} {h : Heap} (node : HNode)
    (hi : HeapInv n0 h) (hn : ∀ x ∈ node.ptrs, n0 ≤ x) :
    HeapInv n0 (h.alloc node).1 := by
  obtain ⟨h1, h2, h3⟩ := hi
  refine ⟨?_, ?_, ?_⟩
  · show n0 ≤ h.next + 1
    omega
  · intro a nd hg
    show a < h.next + 1
    by_cases hab : a = h.next
    · omega
    · rw [Heap.get_alloc_ne _ _ hab] at hg
      have := h2 a nd hg
      omega
  · intro a nd ha hg x hx
    by_cases hab : a = h.next
    · subst hab
      rw [Heap.get_alloc_self] at hg
      injection hg with he
      exact hn x (he ▸ hx)
    · rw [Heap.get_alloc_ne _ _ hab] at hg
      exact h3 a nd ha hg x hx

theorem frameBelow_alloc {n0 : Nat} (h : Heap) (node : HNode)
    (hn : n0 ≤ h.next) : FrameBelow n0 h (h.alloc node).1 :=
  fun a ha => Heap.get_alloc_ne _ _ (by omega)

theorem get_alloc_preserve {h : Heap} (node : HNode) {a : Nat} {nd : HNode}
    (hi : ∀ a nd, h.get a = some nd → a < h.next)
    (hg : h.get a = some nd) : (h.alloc node).1.get a = some nd := by
  rw [Heap.get_alloc_ne _ _ (by have := hi a nd hg; omega)]
  exact hg

theorem allocCopies_spec {n0 : Nat} (node : HNode) (hp : node.ptrs = []) :
    ∀ (k : Nat) (h : Heap), HeapInv n0 h →
      FrameBelow n0 h (allocCopies node k h).1 ∧
      HeapInv n0 (allocCopies node k h).1 ∧
      (∀ x ∈ (allocCopies node k h).2, n0 ≤ x) ∧
      (∀ a nd, h.get a = some nd → (allocCopies node k h).1.get a = some nd)
  | 0, h, hi =>
    ⟨FrameBelow.rfl h, hi, by simp [allocCopies], fun a nd hg => hg⟩
  | k + 1, h, hi => by
    have hinv2 : HeapInv n0 (h.alloc node).1 :=
      heapInv_alloc node hi (by simp [hp])
    obtain ⟨f2, i2, x2, p2⟩ := allocCopies_spec node hp k (h.alloc node).1 hinv2
    refine ⟨?_, ?_, ?_, ?_⟩
    · show FrameBelow n0 h (allocCopies node k (h.alloc node).1).1
      exact (frameBelow_alloc h node hi.1).trans f2
    · exact i2
    · intro x hx
      simp only [allocCopies] at hx
      rcases List.mem_cons.mp hx with rfl | hx
      · exact hi.1
      · exact x2 x hx
    · intro a nd hg
      show (allocCopies node k (h.alloc node).1).1.get a = some nd
      exact p2 a nd (get_alloc_preserve node hi.2.1 hg)

mutual

theorem injectJson_spec {n0 : Nat} :
    ∀ (v : Json) (h : Heap), HeapInv n0 h →
      FrameBelow n0 h (injectJson h v).1 ∧ HeapInv n0 (injectJson h v).1 ∧
      n0 ≤ (injectJson h v).2
  | Json.null, h, hi =>
    ⟨frameBelow_alloc h _ hi.1,
     heapInv_alloc _ hi (by simp [HNode.ptrs]), hi.1⟩
  | Json.bool b, h, hi =>
    ⟨frameBelow_alloc h _ hi.1,
     heapInv_alloc _ hi (by simp [HNode.ptrs]), hi.1⟩
  | Json.num i, h, hi =>
    ⟨frameBelow_alloc h _ hi.1,
     heapInv_alloc _ hi (by simp [HNode.ptrs]), hi.1⟩
  | Json.str s, h, hi =>
    ⟨frameBelow_alloc h _ hi.1,
     heapInv_alloc _ hi (by simp [HNode.ptrs]), hi.1⟩
  | Json.arr xs, h, hi => by
    obtain ⟨f1, i1, x1⟩ := injectJsonList_spec xs h hi
    refine ⟨?_, ?_, ?_⟩
    · show FrameBelow n0 h
        ((injectJsonList h xs).1.alloc (.arr (injectJsonList h xs).2)).1
      exact f1.trans (frameBelow_alloc _ _ i1.1)
    · exact heapInv_alloc _ i1 (fun x hx => x1 x hx)
    · exact i1.1
  | Json.obj l, h, hi => by
    obtain ⟨f1, i1, x1⟩ := injectJsonEntries_spec l h hi
    refine ⟨?_, ?_, ?_⟩
    · show FrameBelow n0 h
        ((injectJsonEntries h l).1.alloc (.obj (injectJsonEntries h l).2)).1
      exact f1.trans (frameBelow_alloc _ _ i1.1)
    · exact heapInv_alloc _ i1 (fun x hx => x1 x hx)
    · exact i1.1

theorem injectJsonList_spec {n0 : Nat} :
    ∀ (xs : List Json) (h : Heap), HeapInv n0 h →
      FrameBelow n0 h (injectJsonList h xs).1 ∧
      HeapInv n0 (injectJsonList h xs).1 ∧
      ∀ x ∈ (injectJsonList h xs).2, n0 ≤ x
  | [], h, hi => ⟨FrameBelow.rfl h, hi, by simp [injectJsonList]⟩
  | v :: xs, h, hi => by
    obtain ⟨f1, i1, a1⟩ := injectJson_spec v h hi
    obtain ⟨f2, i2, x2⟩ := injectJsonList_spec xs (injectJson h v).1 i1
    refine ⟨f1.trans f2, i2, ?_⟩
    intro x hx
    simp only [injectJsonList] at hx
    rcases List.mem_cons.mp hx with rfl | hx
    · exact a1
    · exact x2 x hx

theorem injectJsonEntries_spec {n0 : Nat} :
    ∀ (l : List (String × Json)) (h : Heap), HeapInv n0 h →
      FrameBelow n0 h (injectJsonEntries h l).1 ∧
      HeapInv n0 (injectJsonEntries h l).1 ∧
      ∀ x ∈ (injectJsonEntries h l).2.map Prod.snd, n0 ≤ x
  | [], h, hi => ⟨FrameBelow.rfl h, hi, by simp [injectJsonEntries]⟩
  | (k, v) :: rest, h, hi => by
    obtain ⟨f1, i1, a1⟩ := injectJson_spec v h hi
    obtain ⟨f2, i2, x2⟩ := injectJsonEntries_spec rest (injectJson h v).1 i1
    refine ⟨f1.trans f2, i2, ?_⟩
    intro x hx
    simp only [injectJsonEntries, List.map_cons, List.mem_cons] at hx
    rcases hx with rfl | hx
    · exact a1
    · exact x2 x hx

end

/-- `_dot_get` starting at a high address only yields high addresses. -/
theorem dotGetH_ge {n0 : Nat} :
    ∀ (parts : List String) (h : Heap) (cur a : Nat),
      highClosed n0 h → n0 ≤ cur → dotGetH h cur parts = some a → n0 ≤ a
  | [], h, cur, a, _, hcur, hg => by
    simp only [dotGetH] at hg
    injection hg with he
    exact he ▸ hcur
  | p :: rest, h, cur, a, hc, hcur, hg => by
    cases hnode : h.get cur with
    | none => simp [dotGetH, hnode] at hg
    | some nd =>
      cases nd with
      | arr es =>
        simp only [dotGetH, hnode] at hg
        cases hint : pyInt? p with
        | none => simp [hint] at hg
        | some i =>
          simp only [hint] at hg
          by_cases hcond : 0 ≤ i ∧ i < (es.length : Int)
          · rw [if_pos hcond] at hg
            cases hes : es.get? i.toNat with
            | none =>
              rw [hes] at hg
              simp at hg
            | some nxt =>
              rw [hes] at hg
              exact dotGetH_ge rest h nxt a hc
                (hc cur (.arr es) hcur hnode nxt (List.get?_mem hes)) hg
          · rw [if_neg hcond] at hg
            exact absurd hg (by simp)
      | obj ents =>
        simp only [dotGetH, hnode] at hg
        cases hlk : lookupStr ents p with
        | none => simp [hlk] at hg
        | some nxt =>
          simp only [hlk] at hg
          exact dotGetH_ge rest h nxt a hc
            (hc cur (.obj ents) hcur hnode nxt (lookupStr_mem_snd ents p nxt hlk))
            hg
      | null => simp [dotGetH, hnode] at hg
      | bool b => simp [dotGetH, hnode] at hg
      | num i => simp [dotGetH, hnode] at hg
      | str s => simp [dotGetH, hnode] at hg

theorem dotGetFullH_ge {n0 : Nat} (h : Heap) (root a : Nat) (path : String)
    (hc : highClosed n0 h) (hroot : n0 ≤ root)
    (hg : dotGetFullH h root path = some a) : n0 ≤ a := by
  by_cases hp : path = ""
  · rw [dotGetFullH, if_pos hp] at hg
    injection hg with he
    exact he ▸ hroot
  · rw [dotGetFullH, if_neg hp] at hg
    exact dotGetH_ge (pySplitDot path) h root a hc hroot hg

/-- `_dot_set` writes only to addresses at or above `n0` when started at a
high address with a high value: the heap below `n0` is untouched and the
invariant is preserved (on error paths as well). -/
theorem dotSetH_spec {n0 : Nat} :
    ∀ (parts : List String) (h : Heap) (cur vAddr : Nat),
      HeapInv n0 h → n0 ≤ cur → n0 ≤ vAddr →
      FrameBelow n0 h (dotSetH parts h cur vAddr).1 ∧
      HeapInv n0 (dotSetH parts h cur vAddr).1
  | [], h, cur, vAddr, hi, _, _ => ⟨FrameBelow.rfl h, hi⟩
  | [p], h, cur, vAddr, hi, hcur, hv => by
    cases hnode : h.get cur with
    | none =>
      simp only [dotSetH, hnode]
      exact ⟨FrameBelow.rfl h, hi⟩
    | some nd =>
      cases nd with
      | obj ents =>
        simp only [dotSetH, hnode]
        refine ⟨frameBelow_write h _ hcur, heapInv_write _ hi hnode ?_⟩
        intro x hx
        rcases mem_snd_pyDictInsert ents p vAddr x hx with rfl | hx
        · exact hv
        · exact hi.2.2 cur (.obj ents) hcur hnode x hx
      | arr es =>
        simp only [dotSetH, hnode]
        cases hint : pyInt? p with
        | none =>
          simp only [hint]
          exact ⟨FrameBelow.rfl h, hi⟩
        | some i =>
          simp only [hint]
          by_cases hpos : 0 ≤ i
          · rw [if_pos hpos]
            obtain ⟨f2, i2, x2, p2⟩ :=
              allocCopies_spec HNode.null rfl (i.toNat + 1 - es.length) h hi
            refine ⟨f2.trans (frameBelow_write _ _ hcur),
              heapInv_write _ i2 (p2 cur _ hnode) ?_⟩
            intro x hx
            rcases List.mem_or_eq_of_mem_set hx with hx | rfl
            · rcases List.mem_append.mp hx with hx | hx
              · exact hi.2.2 cur (.arr es) hcur hnode x hx
              · exact x2 x hx
            · exact hv
          · rw [if_neg hpos]
            by_cases hneg : (-i) ≤ (es.length : Int)
            · rw [if_pos hneg]
              refine ⟨frameBelow_write h _ hcur, heapInv_write _ hi hnode ?_⟩
              intro x hx
              rcases List.mem_or_eq_of_mem_set hx with hx | rfl
              · exact hi.2.2 cur (.arr es) hcur hnode x hx
              · exact hv
            · rw [if_neg hneg]
              exact ⟨FrameBelow.rfl h, hi⟩
      | null =>
        simp only [dotSetH, hnode]
        exact ⟨FrameBelow.rfl h, hi⟩
      | bool b =>
        simp only [dotSetH, hnode]
        exact ⟨FrameBelow.rfl h, hi⟩
      | num j =>
        simp only [dotSetH, hnode]
        exact ⟨FrameBelow.rfl h, hi⟩
      | str s =>
        simp only [dotSetH, hnode]
        exact ⟨FrameBelow.rfl h, hi⟩
  | p :: q :: rest, h, cur, vAddr, hi, hcur, hv => by
    cases hnode : h.get cur with
    | none =>
      simp only [dotSetH, hnode]
      exact ⟨FrameBelow.rfl h, hi⟩
    | some nd =>
      cases nd with
      | obj ents =>
        simp only [dotSetH, hnode]
        have hfresh : FrameBelow n0 h (dotSetH (q :: rest)
              ((h.alloc (HNode.obj [])).1.write cur
                (HNode.obj (pyDictInsert ents p (h.alloc (HNode.obj [])).2)))
              (h.alloc (HNode.obj [])).2 vAddr).1 ∧
            HeapInv n0 (dotSetH (q :: rest)
              ((h.alloc (HNode.obj [])).1.write cur
                (HNode.obj (pyDictInsert ents p (h.alloc (HNode.obj [])).2)))
              (h.alloc (HNode.obj [])).2 vAddr).1 := by
          have hi2 : HeapInv n0 (h.alloc (HNode.obj [])).1 :=
            heapInv_alloc _ hi (by simp [HNode.ptrs])
          have hcur2 : (h.alloc (HNode.obj [])).1.get cur =
              some (HNode.obj ents) :=
            get_alloc_preserve _ hi.2.1 hnode
          have hi3 : HeapInv n0 ((h.alloc (HNode.obj [])).1.write cur
              (HNode.obj (pyDictInsert ents p h.next))) := by
            refine heapInv_write _ hi2 hcur2 ?_
            intro x hx
            rcases mem_snd_pyDictInsert ents p h.next x hx with rfl | hx
            · exact hi.1
            · exact hi.2.2 cur (.obj ents) hcur hnode x hx
          obtain ⟨f4, i4⟩ :=
            dotSetH_spec (q :: rest) _ h.next vAddr hi3 hi.1 hv
          exact ⟨((frameBelow_alloc h _ hi.1).trans
            (frameBelow_write _ _ hcur)).trans f4, i4⟩
        cases hlk : lookupStr ents p with
        | some child =>
          simp only [hlk]
          have hchild : n0 ≤ child :=
            hi.2.2 cur (.obj ents) hcur hnode child
              (lookupStr_mem_snd ents p child hlk)
          cases hch : h.get child with
          | some cnd =>
            cases cnd with
            | obj o =>
              simp only [hch]
              exact dotSetH_spec (q :: rest) h child vAddr hi hchild hv
            | arr es2 =>
              simp only [hch]
              exact dotSetH_spec (q :: rest) h child vAddr hi hchild hv
            | null =>
              simp only [hch]
              exact hfresh
            | bool b =>
              simp only [hch]
              exact hfresh
            | num j =>
              simp only [hch]
              exact hfresh
            | str s =>
              simp only [hch]
              exact hfresh
          | none =>
            simp only [hch]
            exact hfresh
        | none =>
          simp only [hlk]
          exact hfresh
      | arr es =>
        simp only [dotSetH, hnode]
        cases hint : pyInt? p with
        | none =>
          simp only [hint]
          exact ⟨FrameBelow.rfl h, hi⟩
        | some i =>
          simp only [hint]
          by_cases hpos : 0 ≤ i
          · rw [if_pos hpos]
            by_cases hlt : i.toNat < es.length
            · rw [dif_pos hlt]
              have hnxt : n0 ≤ es.get ⟨i.toNat, hlt⟩ :=
                hi.2.2 cur (.arr es) hcur hnode _ (List.get_mem es i.toNat hlt)
              exact dotSetH_spec (q :: rest) h _ vAddr hi hnxt hv
            · rw [dif_neg hlt]
              obtain ⟨f2, i2, x2, p2⟩ :=
                allocCopies_spec (HNode.obj []) rfl (i.toNat + 1 - es.length) h hi
              have hi3 : HeapInv n0
                  ((allocCopies (HNode.obj []) (i.toNat + 1 - es.length) h).1.write
                    cur (HNode.arr
                      (es ++ (allocCopies (HNode.obj [])
                        (i.toNat + 1 - es.length) h).2))) := by
                refine heapInv_write _ i2 (p2 cur _ hnode) ?_
                intro x hx
                rcases List.mem_append.mp hx with hx | hx
                · exact hi.2.2 cur (.arr es) hcur hnode x hx
                · exact x2 x hx
              have fr3 : FrameBelow n0 h
                  ((allocCopies (HNode.obj []) (i.toNat + 1 - es.length) h).1.write
                    cur (HNode.arr
                      (es ++ (allocCopies (HNode.obj [])
                        (i.toNat + 1 - es.length) h).2))) :=
                f2.trans (frameBelow_write _ _ hcur)
              cases hes2 : (es ++ (allocCopies (HNode.obj [])
                  (i.toNat + 1 - es.length) h).2).get? i.toNat with
              | none => exact ⟨fr3, hi3⟩
              | some nxt =>
                have hnxt : n0 ≤ nxt := by
                  rcases List.mem_append.mp (List.get?_mem hes2) with hx | hx
                  · exact hi.2.2 cur (.arr es) hcur hnode nxt hx
                  · exact x2 nxt hx
                obtain ⟨f4, i4⟩ := dotSetH_spec (q :: rest) _ nxt vAddr hi3 hnxt hv
                exact ⟨fr3.trans f4, i4⟩
          · rw [if_neg hpos]
            by_cases hneg : (-i) ≤ (es.length : Int)
            · rw [if_pos hneg]
              cases hes : es.get? (es.length - (-i).toNat) with
              | none => exact ⟨FrameBelow.rfl h, hi⟩
              | some nxt =>
                have hnxt : n0 ≤ nxt :=
                  hi.2.2 cur (.arr es) hcur hnode nxt (List.get?_mem hes)
                exact dotSetH_spec (q :: rest) h nxt vAddr hi hnxt hv
            · rw [if_neg hneg]
              exact ⟨FrameBelow.rfl h, hi⟩
      | null =>
        simp only [dotSetH, hnode]
        exact ⟨FrameBelow.rfl h, hi⟩
      | bool b =>
        simp only [dotSetH, hnode]
        exact ⟨FrameBelow.rfl h, hi⟩
      | num j =>
        simp only [dotSetH, hnode]
        exact ⟨FrameBelow.rfl h, hi⟩
      | str s =>
        simp only [dotSetH, hnode]
        exact ⟨FrameBelow.rfl h, hi⟩

/-- `_dot_delete` from a high address touches only the high region. -/
theorem dotDeleteH_spec {n0 : Nat} :
    ∀ (parts : List String) (h : Heap) (cur : Nat),
      HeapInv n0 h → n0 ≤ cur →
      FrameBelow n0 h (dotDeleteH parts h cur).1 ∧
      HeapInv n0 (dotDeleteH parts h cur).1
  | [], h, cur, hi, _ => ⟨FrameBelow.rfl h, hi⟩
  | [p], h, cur, hi, hcur => by
    cases hnode : h.get cur with
    | none =>
      simp only [dotDeleteH, hnode]
      exact ⟨FrameBelow.rfl h, hi⟩
    | some nd =>
      cases nd with
      | obj ents =>
        simp only [dotDeleteH, hnode]
        refine ⟨frameBelow_write h _ hcur, heapInv_write _ hi hnode ?_⟩
        intro x hx
        exact hi.2.2 cur (.obj ents) hcur hnode x
          (mem_snd_eraseKeyFirst ents p x hx)
      | arr es =>
        simp only [dotDeleteH, hnode]
        cases hint : pyInt? p with
        | none =>
          simp only [hint]
          exact ⟨FrameBelow.rfl h, hi⟩
        | some i =>
          simp only [hint]
          by_cases hcond : 0 ≤ i ∧ i < (es.length : Int)
          · rw [if_pos hcond]
            refine ⟨frameBelow_write h _ hcur, heapInv_write _ hi hnode ?_⟩
            intro x hx
            exact hi.2.2 cur (.arr es) hcur hnode x
              (List.mem_of_mem_eraseIdx hx)
          · rw [if_neg hcond]
            exact ⟨FrameBelow.rfl h, hi⟩
      | null =>
        simp only [dotDeleteH, hnode]
        exact ⟨FrameBelow.rfl h, hi⟩
      | bool b =>
        simp only [dotDeleteH, hnode]
        exact ⟨FrameBelow.rfl h, hi⟩
      | num j =>
        simp only [dotDeleteH, hnode]
        exact ⟨FrameBelow.rfl h, hi⟩
      | str s =>
        simp only [dotDeleteH, hnode]
        exact ⟨FrameBelow.rfl h, hi⟩
  | p :: q :: rest, h, cur, hi, hcur => by
    cases hnode : h.get cur with
    | none =>
      simp only [dotDeleteH, hnode]
      exact ⟨FrameBelow.rfl h, hi⟩
    | some nd =>
      cases nd with
      | obj ents =>
        simp only [dotDeleteH, hnode]
        cases hlk : lookupStr ents p with
        | some child =>
          simp only [hlk]
          exact dotDeleteH_spec (q :: rest) h child hi
            (hi.2.2 cur (.obj ents) hcur hnode child
              (lookupStr_mem_snd ents p child hlk))
        | none =>
          simp only [hlk]
          exact ⟨FrameBelow.rfl h, hi⟩
      | arr es =>
        simp only [dotDeleteH, hnode]
        cases hint : pyInt? p with
        | none =>
          simp only [hint]
          exact ⟨FrameBelow.rfl h, hi⟩
        | some i =>
          simp only [hint]
          by_cases hcond : 0 ≤ (if i < 0 then (es.length : Int) + i else i) ∧
              (if i < 0 then (es.length : Int) + i else i) < (es.length : Int)
          · rw [if_pos hcond]
            cases hes : es.get?
                (if i < 0 then (es.length : Int) + i else i).toNat with
            | none => exact ⟨FrameBelow.rfl h, hi⟩
            | some nxt =>
              exact dotDeleteH_spec (q :: rest) h nxt hi
                (hi.2.2 cur (.arr es) hcur hnode nxt (List.get?_mem hes))
          · rw [if_neg hcond]
            exact ⟨FrameBelow.rfl h, hi⟩
      | null =>
        simp only [dotDeleteH, hnode]
        exact ⟨FrameBelow.rfl h, hi⟩
      | bool b =>
        simp only [dotDeleteH, hnode]
        exact ⟨FrameBelow.rfl h, hi⟩
      | num j =>
        simp only [dotDeleteH, hnode]
        exact ⟨FrameBelow.rfl h, hi⟩
      | str s =>
        simp only [dotDeleteH, hnode]
        exact ⟨FrameBelow.rfl h, hi⟩

theorem moveStepH_spec {n0 : Nat} (root : Nat) (hroot : n0 ≤ root)
    (sd : String × String) (h : Heap) (hi : HeapInv n0 h) :
    FrameBelow n0 h (moveStepH h root sd).1 ∧
    HeapInv n0 (moveStepH h root sd).1 := by
  cases hget : dotGetFullH h root sd.1 with
  | none =>
    simp only [moveStepH, hget]
    exact ⟨FrameBelow.rfl h, hi⟩
  | some vAddr =>
    have hv : n0 ≤ vAddr :=
      dotGetFullH_ge h root vAddr sd.1 hi.2.2 hroot hget
    have hproceed : FrameBelow n0 h
          (match dotSetH (pySplitDot sd.2) h root vAddr with
            | (h2, some e) => (h2, some e)
            | (h2, none) => dotDeleteH (pySplitDot sd.1) h2 root).1 ∧
        HeapInv n0
          (match dotSetH (pySplitDot sd.2) h root vAddr with
            | (h2, some e) => (h2, some e)
            | (h2, none) => dotDeleteH (pySplitDot sd.1) h2 root).1 := by
      obtain ⟨f1, i1⟩ := dotSetH_spec (pySplitDot sd.2) h root vAddr hi hroot hv
      cases hset : dotSetH (pySplitDot sd.2) h root vAddr with
      | mk h2 err =>
        rw [hset] at f1 i1
        cases err with
        | some e => exact ⟨f1, i1⟩
        | none =>
          obtain ⟨f2, i2⟩ := dotDeleteH_spec (pySplitDot sd.1) h2 root i1 hroot
          exact ⟨f1.trans f2, i2⟩
    cases hvn : h.get vAddr with
    | none =>
      simp only [moveStepH, hget, hvn]
      exact hproceed
    | some nd =>
      cases nd with
      | null =>
        simp only [moveStepH, hget, hvn]
        exact ⟨FrameBelow.rfl h, hi⟩
      | bool b =>
        simp only [moveStepH, hget, hvn]
        exact hproceed
      | num j =>
        simp only [moveStepH, hget, hvn]
        exact hproceed
      | str s =>
        simp only [moveStepH, hget, hvn]
        exact hproceed
      | arr es =>
        simp only [moveStepH, hget, hvn]
        exact hproceed
      | obj ents =>
        simp only [moveStepH, hget, hvn]
        exact hproceed

theorem setStepH_spec {n0 : Nat} (root : Nat) (hroot : n0 ≤ root)
    (pv : String × Json) (h : Heap) (hi : HeapInv n0 h) :
    FrameBelow n0 h (setStepH h root pv).1 ∧
    HeapInv n0 (setStepH h root pv).1 := by
  obtain ⟨f1, i1, a1⟩ := injectJson_spec pv.2 h hi
  obtain ⟨f2, i2⟩ := dotSetH_spec (pySplitDot pv.1) (injectJson h pv.2).1
    root (injectJson h pv.2).2 i1 hroot a1
  exact ⟨f1.trans f2, i2⟩

theorem defaultStepH_spec {n0 : Nat} (root : Nat) (hroot : n0 ≤ root)
    (pv : String × Json) (h : Heap) (hi : HeapInv n0 h) :
    FrameBelow n0 h (defaultStepH h root pv).1 ∧
    HeapInv n0 (defaultStepH h root pv).1 := by
  by_cases hd : defaultIsEmptyH h root pv.1
  · simp only [defaultStepH, if_pos hd]
    obtain ⟨f1, i1, a1⟩ := injectJson_spec pv.2 h hi
    obtain ⟨f2, i2⟩ := dotSetH_spec (pySplitDot pv.1) (injectJson h pv.2).1
      root (injectJson h pv.2).2 i1 hroot a1
    exact ⟨f1.trans f2, i2⟩
  · simp only [defaultStepH, if_neg hd]
    exact ⟨FrameBelow.rfl h, hi⟩

theorem deleteStepH_spec {n0 : Nat} (root : Nat) (hroot : n0 ≤ root)
    (p : String) (h : Heap) (hi : HeapInv n0 h) :
    FrameBelow n0 h (deleteStepH h root p).1 ∧
    HeapInv n0 (deleteStepH h root p).1 :=
  dotDeleteH_spec (pySplitDot p) h root hi hroot

theorem stepsFoldH_spec {n0 : Nat} {α : Type}
    (f : Heap → α → Heap × Option String)
    (hf : ∀ (h : Heap) (x : α), HeapInv n0 h →
      FrameBelow n0 h (f h x).1 ∧ HeapInv n0 (f h x).1) :
    ∀ (l : List α) (h : Heap), HeapInv n0 h →
      FrameBelow n0 h (stepsFoldH f l h).1 ∧
      HeapInv n0 (stepsFoldH f l h).1
  | [], h, hi => ⟨FrameBelow.rfl h, hi⟩
  | x :: rest, h, hi => by
    obtain ⟨f1, i1⟩ := hf h x hi
    cases hfx : f h x with
    | mk h2 err =>
      rw [hfx] at f1 i1
      cases err with
      | none =>
        simp only [stepsFoldH, hfx]
        obtain ⟨f2, i2⟩ := stepsFoldH_spec f hf rest h2 i1
        exact ⟨f1.trans f2, i2⟩
      | some e =>
        simp only [stepsFoldH, hfx]
        exact ⟨f1, i1⟩

theorem applyPhasesH_spec {n0 : Nat} (h1 : Heap) (outRoot : Nat)
    (dsl : AdapterDsl) (hi : HeapInv n0 h1) (hroot : n0 ≤ outRoot) :
    FrameBelow n0 h1 (applyPhasesH h1 outRoot dsl).1 ∧
    ∀ r, (applyPhasesH h1 outRoot dsl).2 = Except.ok r → r = outRoot := by
  obtain ⟨f1, i1⟩ := stepsFoldH_spec _
    (fun h x hh => moveStepH_spec outRoot hroot x h hh) dsl.move h1 hi
  cases hm : stepsFoldH (fun hh sd => moveStepH hh outRoot sd) dsl.move h1 with
  | mk h2 err1 =>
    rw [hm] at f1 i1
    cases err1 with
    | some e =>
      simp only [applyPhasesH, hm]
      exact ⟨f1, fun r hr => absurd hr (by simp)⟩
    | none =>
      obtain ⟨f2, i2⟩ := stepsFoldH_spec _
        (fun h x hh => setStepH_spec outRoot hroot x h hh) dsl.set h2 i1
      cases hs : stepsFoldH (fun hh pv => setStepH hh outRoot pv) dsl.set h2 with
      | mk h3 err2 =>
        rw [hs] at f2 i2
        cases err2 with
        | some e =>
          simp only [applyPhasesH, hm, hs]
          exact ⟨f1.trans f2, fun r hr => absurd hr (by simp)⟩
        | none =>
          obtain ⟨f3, i3⟩ := stepsFoldH_spec _
            (fun h x hh => defaultStepH_spec outRoot hroot x h hh)
            dsl.defaults h3 i2
          cases hd : stepsFoldH (fun hh pv => defaultStepH hh outRoot pv)
              dsl.defaults h3 with
          | mk h4 err3 =>
            rw [hd] at f3 i3
            cases err3 with
            | some e =>
              simp only [applyPhasesH, hm, hs, hd]
              exact ⟨(f1.trans f2).trans f3, fun r hr => absurd hr (by simp)⟩
            | none =>
              obtain ⟨f4, i4⟩ := stepsFoldH_spec _
                (fun h x hh => deleteStepH_spec outRoot hroot x h hh)
                dsl.delete h4 i3
              cases hdel : stepsFoldH (fun hh p => deleteStepH hh outRoot p)
                  dsl.delete h4 with
              | mk h5 err4 =>
                rw [hdel] at f4 i4
                cases err4 with
                | some e =>
                  simp only [applyPhasesH, hm, hs, hd, hdel]
                  exact ⟨((f1.trans f2).trans f3).trans f4,
                    fun r hr => absurd hr (by simp)⟩
                | none =>
                  simp only [applyPhasesH, hm, hs, hd, hdel]
                  refine ⟨((f1.trans f2).trans f3).trans f4, ?_⟩
                  intro r hr
                  injection hr with he
                  exact he.symm

theorem assocGet_mem_keys :
    ∀ (l : List (Nat × HNode)) (a : Nat) (n : HNode),
      assocGet l a = some n → a ∈ l.map Prod.fst
  | [], a, n, hg => by simp [assocGet] at hg
  | (k, v) :: rest, a, n, hg => by
    simp only [assocGet] at hg
    by_cases hk : k = a
    · simp [hk]
    · rw [if_neg hk] at hg
      simp only [List.map_cons, List.mem_cons]
      exact Or.inr (assocGet_mem_keys rest a n hg)

/-- C9: `_apply_adapter_dsl` is pure with respect to its input. The body
copies the input via a JSON round-trip (`out = json.loads(json.dumps
(data))`) before any rule runs, and all `move`/`set`/`defaults`/`delete`
mutations write only to addresses allocated during the call: every address
allocated before the call — in particular every node of the caller's
input document — holds exactly the same object afterwards (even when a
rule raises), and a returned document root is always freshly allocated. -/
theorem c9_adapter_deep_copy_frame (h : Heap) (dataRoot : Nat)
    (dsl : AdapterDsl) (hwf : ∀ a ∈ h.mem.map Prod.fst, a < h.next) :
    (∀ a, a < h.next →
      ((applyAdapterDslH h dataRoot dsl).1).get a = h.get a) ∧
    (∀ r, (applyAdapterDslH h dataRoot dsl).2 = Except.ok r → h.next ≤ r) := by
  have hwf2 : ∀ a nd, h.get a = some nd → a < h.next := by
    intro a nd hg
    exact hwf a (assocGet_mem_keys h.mem a nd hg)
  have hi0 : HeapInv h.next h := by
    refine ⟨le_refl _, hwf2, ?_⟩
    intro a nd ha hg
    exact absurd (hwf2 a nd hg) (by omega)
  obtain ⟨fc, ic, ac⟩ := injectJson_spec (readback h h.next dataRoot) h hi0
  obtain ⟨fp, rp⟩ := applyPhasesH_spec (deepCopyH h dataRoot).1
    (deepCopyH h dataRoot).2 dsl ic ac
  constructor
  · intro a ha
    exact (fp a ha).trans (fc a ha)
  · intro r hr
    rw [rp r hr]
    exact ac

def c9Heap : Heap :=
  ⟨[(0, HNode.obj [("a", 1)]), (1, HNode.num 7)], 2⟩

def c9Dsl : AdapterDsl :=
  ⟨[], [("a", Json.num 5)], [], []⟩

theorem c9_adapter_deep_copy_frame_witness :
    (∀ a, a < c9Heap.next →
      ((applyAdapterDslH c9Heap 0 c9Dsl).1).get a = c9Heap.get a) ∧
    (∀ r, (applyAdapterDslH c9Heap 0 c9Dsl).2 = Except.ok r →
      c9Heap.next ≤ r) :=
  c9_adapter_deep_copy_frame c9Heap 0 c9Dsl (by decide)

end Raina
